import Mathlib

/-!
# Verification of the grouped-aggregation hash table (SuperLargeHashTable)

Shallow embedding of the linear-probing aggregate hash table declared in
`src/include/duckdb/execution/aggregate_hashtable.hpp`.  The repository ships
only the class declaration; every member function's behaviour below is
modelled from the specification (`spec.md`, sections 3-4 and 8), faithful to
its words: a linear-probing table whose slot array caches a 16-bit hash
prefix next to a row pointer, whose rows store the group key, the full group
hash and the aggregate states, and whose operations are
`FindOrCreateGroups`, `AddChunk`, `Scan`, `FetchAggregates`, `Combine`
(via `FlushMerge`), `Resize` and `HashGroups`.

Group keys are a type `K` with decidable equality, hashing is an arbitrary
function `f : K → Nat` supplied by the external Group Hasher, aggregate
states are a type `S` manipulated only through the external catalog's
`init` / `update` / `combine` operations, exactly as the spec's interface
boundary prescribes.  Row addresses are indices into the row storage.
-/

set_option autoImplicit false

namespace DuckDBAgg

/-- Modelled from the spec and the header (`hash_prefix_bits = 16`): number of
hash bits cached next to the row pointer for fast non-match rejection. -/
def hashPrefixBits : Nat := 16

/-- Hashes are 64-bit values (`hash_t`). -/
def hashBits : Nat := 64

/-- Modelled from the header (`hash_prefix_get_bitmask`): mask selecting the
top `hashPrefixBits` bits of a 64-bit hash, the cached prefix. -/
def hashPrefixGetBitmask : Nat := (2 ^ hashPrefixBits - 1) * 2 ^ (hashBits - hashPrefixBits)

/-- Modelled from the header (`hash_prefix_remove_bitmask`): mask clearing the
cached prefix bits, leaving the lower pointer bits. -/
def hashPrefixRemoveBitmask : Nat := 2 ^ (hashBits - hashPrefixBits) - 1

/-- The cached prefix of a hash value. -/
def hashPrefixOf (h : Nat) : Nat := h &&& hashPrefixGetBitmask

/-- Modelled from the spec (external aggregate catalog, section 6): per
aggregate the catalog supplies `initialize`, `update` and a binary `combine`
over opaque states.  `finalize`/`destroy` do not change states and are
modelled where needed (destruction in the lifecycle model below). -/
structure AggregateFunction (I S : Type) where
  init : S
  update : S → I → S
  combine : S → S → S

/-- Modelled from the spec (section 3, row record): one group's row, holding
the group key columns, the stored 64-bit group hash and the aggregate state
slots. -/
structure Row (K S : Type) where
  group : K
  rowHash : Nat
  state : S
deriving DecidableEq

/-- Modelled from the spec (section 3) and the header's private fields: the
hash table state.  `slots` is the hash array (`hashes`), one entry per
capacity, each either empty or a cached hash prefix together with a row
pointer (modelled as an index into `rows`); `rows` is the payload storage,
in creation order. -/
structure HT (K S : Type) where
  capacity : Nat
  slots : List (Option (Nat × Nat))
  rows : List (Row K S)
deriving DecidableEq

variable {K S I V : Type}

/-- The `entries` field: number of groups stored. -/
def HT.entries (ht : HT K S) : Nat := ht.rows.length

/-- The `bitmask` field: `capacity - 1`, used as `hash & bitmask`. -/
def HT.bitmask (ht : HT K S) : Nat := ht.capacity - 1

/-- Slot lookup; positions outside the array read as empty. -/
def HT.slotAt (ht : HT K S) (i : Nat) : Option (Nat × Nat) := ht.slots.getD i none

/-- The home slot of a hash: `hash & bitmask`. -/
def HT.homeOf (ht : HT K S) (h : Nat) : Nat := h &&& ht.bitmask

/-- The stored group keys, in row order. -/
def HT.groups (ht : HT K S) : List K := ht.rows.map Row.group

/-- A freshly constructed table with the given capacity: empty hash array,
no rows. -/
def emptyHT (K S : Type) (cap : Nat) : HT K S := ⟨cap, List.replicate cap none, []⟩

/-- The aggregate state currently stored for a group key, if present. -/
def HT.stateOf [DecidableEq K] (ht : HT K S) (k : K) : Option S :=
  (ht.rows.find? (fun r => decide (r.group = k))).map Row.state

/-- Modelled from the spec (section 4.3): the linear-probing loop.  From a
position, compare the cached hash prefix and then the full group key; stop at
a matching row or at the first empty slot, else advance (wrapping at
capacity).  Fuel bounds the walk; exhaustion models the fatal
capacity-exhaustion condition. -/
def probeLoop [DecidableEq K] (ht : HT K S) (k : K) (pf : Nat) :
    Nat → Nat → Option (Nat ⊕ Nat)
  | 0, _ => none
  | fuel + 1, pos =>
    match ht.slotAt pos with
    | none => some (Sum.inr pos)
    | some s =>
      if s.1 = pf ∧ (ht.rows.get? s.2).map Row.group = some k then some (Sum.inl s.2)
      else probeLoop ht k pf fuel ((pos + 1) % ht.capacity)

/-- Modelled from the spec (section 4.3): probing for one key starts at
`hash & bitmask` with the key's cached prefix; `Sum.inl r` is a matching row
index, `Sum.inr j` the first empty slot. -/
def probe [DecidableEq K] (ht : HT K S) (k : K) (h : Nat) : Option (Nat ⊕ Nat) :=
  probeLoop ht k (hashPrefixOf h) ht.capacity (ht.homeOf h)

/-- Modelled from the spec (sections 4.3-4.5): find-or-create for a single
input row.  A matching row's address is returned; an empty slot receives the
prefix-tagged pointer to a freshly scattered row (group key and hash written,
state initialized).  Returns the table, the row address, and whether the
group is newly created; `none` models the fatal full-table condition. -/
def findOrCreate [DecidableEq K] (init : S) (ht : HT K S) (k : K) (h : Nat) :
    Option (HT K S × Nat × Bool) :=
  match probe ht k h with
  | some (Sum.inl r) => some (ht, r, false)
  | some (Sum.inr j) =>
    some (⟨ht.capacity,
           ht.slots.set j (some (hashPrefixOf h, ht.rows.length)),
           ht.rows ++ [⟨k, h, init⟩]⟩,
          ht.rows.length, true)
  | none => none

/-- Batch loop behind the four-argument `FindOrCreateGroups`: process the
key/hash pairs in order, collecting the row addresses and the selection of
newly created batch positions (`i` is the position of the first pair). -/
def findOrCreateLoop [DecidableEq K] (init : S) :
    HT K S → List (K × Nat) → Nat → Option (HT K S × List Nat × List Nat)
  | ht, [], _ => some (ht, [], [])
  | ht, (k, h) :: rest, i =>
    match findOrCreate init ht k h with
    | none => none
    | some (ht1, addr, isNew) =>
      match findOrCreateLoop init ht1 rest (i + 1) with
      | none => none
      | some (ht2, addrs, newSel) =>
        some (ht2, addr :: addrs, (if isNew then [i] else []) ++ newSel)

/-- Modelled from the header (four-argument `FindOrCreateGroups`): find or
create all groups of a batch given their precomputed hashes, returning the
table, the addresses vector and the `new_groups` selection vector. -/
def FindOrCreateGroups [DecidableEq K] (init : S) (ht : HT K S) (ks : List K) (hs : List Nat) :
    Option (HT K S × List Nat × List Nat) :=
  findOrCreateLoop init ht (ks.zip hs) 0

/-- Modelled from the header (`HashGroups`): hash every group key of a batch
with the external group hasher. -/
def HashGroups (f : K → Nat) (ks : List K) : List Nat := ks.map f

/-- Batch loop behind the three-argument `FindOrCreateGroups`: identical to
`findOrCreateLoop` but hashing each group key on the fly. -/
def findOrCreateLoopNoHashes [DecidableEq K] (f : K → Nat) (init : S) :
    HT K S → List K → Nat → Option (HT K S × List Nat × List Nat)
  | ht, [], _ => some (ht, [], [])
  | ht, k :: rest, i =>
    match findOrCreate init ht k (f k) with
    | none => none
    | some (ht1, addr, isNew) =>
      match findOrCreateLoopNoHashes f init ht1 rest (i + 1) with
      | none => none
      | some (ht2, addrs, newSel) =>
        some (ht2, addr :: addrs, (if isNew then [i] else []) ++ newSel)

/-- Modelled from the header (three-argument `FindOrCreateGroups` overload,
no hash vector): hashes the groups itself, then finds or creates them. -/
def FindOrCreateGroupsNoHashes [DecidableEq K] (f : K → Nat) (init : S) (ht : HT K S)
    (ks : List K) : Option (HT K S × List Nat × List Nat) :=
  findOrCreateLoopNoHashes f init ht ks 0

/-- Batch loop behind the two-argument `FindOrCreateGroups`: fills only the
addresses vector. -/
def findOrCreateLoopAddrOnly [DecidableEq K] (f : K → Nat) (init : S) :
    HT K S → List K → Option (HT K S × List Nat)
  | ht, [] => some (ht, [])
  | ht, k :: rest =>
    match findOrCreate init ht k (f k) with
    | none => none
    | some (ht1, addr, _) =>
      match findOrCreateLoopAddrOnly f init ht1 rest with
      | none => none
      | some (ht2, addrs) => some (ht2, addr :: addrs)

/-- Modelled from the header (two-argument `FindOrCreateGroups` overload):
only the addresses vector is produced. -/
def FindOrCreateGroupsAddrOnly [DecidableEq K] (f : K → Nat) (init : S) (ht : HT K S)
    (ks : List K) : Option (HT K S × List Nat) :=
  findOrCreateLoopAddrOnly f init ht ks

/-- Reference prober for the prefix-soundness claim: identical to `probeLoop`
except that it compares the full group-key bytes at every probed slot, with
no cached-prefix rejection. -/
def probeLoopFull [DecidableEq K] (ht : HT K S) (k : K) :
    Nat → Nat → Option (Nat ⊕ Nat)
  | 0, _ => none
  | fuel + 1, pos =>
    match ht.slotAt pos with
    | none => some (Sum.inr pos)
    | some s =>
      if (ht.rows.get? s.2).map Row.group = some k then some (Sum.inl s.2)
      else probeLoopFull ht k fuel ((pos + 1) % ht.capacity)

/-- Full-key-comparison variant of `probe`. -/
def probeFull [DecidableEq K] (ht : HT K S) (k : K) (h : Nat) : Option (Nat ⊕ Nat) :=
  probeLoopFull ht k ht.capacity (ht.homeOf h)

/-- Full-key-comparison variant of `findOrCreate`. -/
def findOrCreateFull [DecidableEq K] (init : S) (ht : HT K S) (k : K) (h : Nat) :
    Option (HT K S × Nat × Bool) :=
  match probeFull ht k h with
  | some (Sum.inl r) => some (ht, r, false)
  | some (Sum.inr j) =>
    some (⟨ht.capacity,
           ht.slots.set j (some (hashPrefixOf h, ht.rows.length)),
           ht.rows ++ [⟨k, h, init⟩]⟩,
          ht.rows.length, true)
  | none => none

/-- Full-key-comparison variant of the batch loop. -/
def findOrCreateLoopFull [DecidableEq K] (f : K → Nat) (init : S) :
    HT K S → List K → Nat → Option (HT K S × List Nat × List Nat)
  | ht, [], _ => some (ht, [], [])
  | ht, k :: rest, i =>
    match findOrCreateFull init ht k (f k) with
    | none => none
    | some (ht1, addr, isNew) =>
      match findOrCreateLoopFull f init ht1 rest (i + 1) with
      | none => none
      | some (ht2, addrs, newSel) =>
        some (ht2, addr :: addrs, (if isNew then [i] else []) ++ newSel)

/-- Full-key-comparison variant of `FindOrCreateGroups` (an otherwise
identical prober that never consults the cached hash prefix). -/
def FindOrCreateGroupsFull [DecidableEq K] (f : K → Nat) (init : S) (ht : HT K S)
    (ks : List K) : Option (HT K S × List Nat × List Nat) :=
  findOrCreateLoopFull f init ht ks 0

/-- In-place modification of one row of the payload storage. -/
def modifyAt (u : Row K S → Row K S) : List (Row K S) → Nat → List (Row K S)
  | [], _ => []
  | r :: rs, 0 => u r :: rs
  | r :: rs, n + 1 => r :: modifyAt u rs n

/-- Apply a list of in-place state transitions at the given row addresses,
in order (the vectorized update/combine pass over resolved addresses). -/
def applyUpdates : HT K S → List (Nat × (S → S)) → HT K S
  | ht, [] => ht
  | ht, (addr, u) :: rest =>
    applyUpdates ⟨ht.capacity, ht.slots,
                  modifyAt (fun r => ⟨r.group, r.rowHash, u r.state⟩) ht.rows addr⟩ rest

/-- Modelled from the header (`AddChunk`) and spec sections 4.3-4.5: resolve
every input row's group to a row address (creating and initializing missing
groups), then run the aggregate's update function once per input row on the
resolved state. -/
def AddChunk [DecidableEq K] (f : K → Nat) (agg : AggregateFunction I S) (ht : HT K S)
    (batch : List (K × I)) : Option (HT K S) :=
  match FindOrCreateGroupsNoHashes f agg.init ht (batch.map Prod.fst) with
  | none => none
  | some (ht1, addrs, _) =>
    some (applyUpdates ht1 (addrs.zip (batch.map (fun kv s => agg.update s kv.2))))

/-- A sequence of `AddChunk` calls. -/
def AddChunkList [DecidableEq K] (f : K → Nat) (agg : AggregateFunction I S) :
    HT K S → List (List (K × I)) → Option (HT K S)
  | ht, [] => some ht
  | ht, b :: bs =>
    match AddChunk f agg ht b with
    | none => none
    | some ht1 => AddChunkList f agg ht1 bs

/-- Modelled from the header (`FlushMerge`) and spec section 4.5: merge a
list of source rows into the table; each source row's group is found or
created (probing with the source row's stored hash), then the aggregate's
combine function folds the source state into the local state. -/
def FlushMerge [DecidableEq K] (agg : AggregateFunction I S) (a : HT K S)
    (srcRows : List (Row K S)) : Option (HT K S) :=
  match FindOrCreateGroups agg.init a (srcRows.map Row.group) (srcRows.map Row.rowHash) with
  | none => none
  | some (a1, addrs, _) =>
    some (applyUpdates a1 (addrs.zip (srcRows.map (fun br s => agg.combine s br.state))))

/-- Modelled from the header (`Combine`) and spec sections 4.5/4.7: merge all
live rows of `b` into `a` via `FlushMerge`. -/
def Combine [DecidableEq K] (agg : AggregateFunction I S) (a b : HT K S) : Option (HT K S) :=
  FlushMerge agg a b.rows

/-- Scan loop: walk the hash array forward from a position, skipping empty
slots and collecting row pointers, until the result chunk is full (`limit`)
or the end of the array is reached (`fuel`).  Returns the collected row
indices and the updated scan position. -/
def scanLoop (ht : HT K S) : Nat → Nat → Nat → List Nat × Nat
  | 0, pos, _ => ([], pos)
  | fuel + 1, pos, limit =>
    if limit = 0 then ([], pos)
    else
      match ht.slotAt pos with
      | none => scanLoop ht fuel (pos + 1) limit
      | some s =>
        let rest := scanLoop ht fuel (pos + 1) (limit - 1)
        (s.2 :: rest.1, rest.2)

/-- Modelled from the header (`Scan`) and spec section 4.4: scan the table
starting from `scan_position`, filling at most `limit` output rows, returning
the found row indices and the updated `scan_position` for resumption. -/
def Scan (ht : HT K S) (scanPosition limit : Nat) : List Nat × Nat :=
  scanLoop ht (ht.capacity - scanPosition) scanPosition limit

/-- The row pointers of every live row from a position to the end of the
hash array, in storage order (the reference for a complete scan). -/
def liveFrom (ht : HT K S) : Nat → Nat → List Nat
  | 0, _ => []
  | fuel + 1, pos =>
    match ht.slotAt pos with
    | none => liveFrom ht fuel (pos + 1)
    | some s => s.2 :: liveFrom ht fuel (pos + 1)

/-- A single unbounded scan from the start of the table: its output rows. -/
def scanAll (ht : HT K S) : List (Row K S) :=
  (Scan ht 0 ht.capacity).1.filterMap (fun r => ht.rows.get? r)

/-- A chain of resumed `Scan` calls with the given per-call output limits,
each resuming from the scan position returned by the previous call. -/
def scanChain (ht : HT K S) : Nat → List Nat → List Nat
  | _, [] => []
  | pos, l :: ls =>
    let r := Scan ht pos l
    r.1 ++ scanChain ht r.2 ls

/-- Modelled from the header (`FetchAggregates`): resolve the requested
groups to addresses, then gather their aggregate states in request order. -/
def FetchAggregates [DecidableEq K] (f : K → Nat) (init : S) (ht : HT K S) (ks : List K) :
    Option (List S) :=
  match FindOrCreateGroupsAddrOnly f init ht ks with
  | none => none
  | some (ht1, addrs) => addrs.mapM (fun a => (ht1.rows.get? a).map Row.state)

/-- Probe loop used by `Resize` relocation: find the first empty slot from a
position (no key comparison is needed, every relocated group is distinct). -/
def probeEmptyLoop (ht : HT K S) : Nat → Nat → Option Nat
  | 0, _ => none
  | fuel + 1, pos =>
    match ht.slotAt pos with
    | none => some pos
    | some _ => probeEmptyLoop ht fuel ((pos + 1) % ht.capacity)

/-- Relocate one row into a (larger) table during `Resize`, reusing the
row's stored hash rather than rehashing the key bytes. -/
def insertRelocate (acc : HT K S) (row : Row K S) : Option (HT K S) :=
  match probeEmptyLoop acc acc.capacity (acc.homeOf row.rowHash) with
  | none => none
  | some j =>
    some ⟨acc.capacity,
          acc.slots.set j (some (hashPrefixOf row.rowHash, acc.rows.length)),
          acc.rows ++ [row]⟩

/-- Relocate a list of rows in order. -/
def relocateAll : HT K S → List (Row K S) → Option (HT K S)
  | acc, [] => some acc
  | acc, row :: rest =>
    match insertRelocate acc row with
    | none => none
    | some acc1 => relocateAll acc1 rest

/-- Power-of-two test. -/
def isPow2 (n : Nat) : Bool := n == 2 ^ Nat.log2 n

/-- Modelled from the header (`Resize`) and spec section 4.6: the new
capacity must exceed the current capacity and be a power of two (violations
are fatal, modelled as `none`); a fresh hash array and row storage are
allocated and every live row is relocated (copied verbatim) using its stored
hash. -/
def Resize (ht : HT K S) (newCapacity : Nat) : Option (HT K S) :=
  if ht.capacity < newCapacity && isPow2 newCapacity then
    relocateAll (emptyHT K S newCapacity) ht.rows
  else none

/-- The row index currently holding a group key, if any. -/
def findGroupIdx [DecidableEq K] : List (Row K S) → K → Option Nat
  | [], _ => none
  | r :: rs, k => if r.group = k then some 0 else (findGroupIdx rs k).map (· + 1)

/-- Reference model of group creation: the keys of a batch that are new
relative to the already-present groups `gs`, first occurrences only, in
batch order. -/
def newGroupsList [DecidableEq K] (gs : List K) : List K → List K
  | [] => []
  | k :: ks => if k ∈ gs then newGroupsList gs ks else k :: newGroupsList (gs ++ [k]) ks

/-- Reference model of the `new_groups` selection vector: the batch
positions (numbered from `i`) holding the first occurrence of a key that is
new relative to `gs`. -/
def newIndices [DecidableEq K] (gs : List K) : List K → Nat → List Nat
  | [], _ => []
  | k :: ks, i =>
    if k ∈ gs then newIndices gs ks (i + 1) else i :: newIndices (gs ++ [k]) ks (i + 1)

/-- The update functions of a batch restricted to one group key, in batch
order. -/
def opsFor [DecidableEq K] (g : K) (ks : List K) (us : List (S → S)) : List (S → S) :=
  (ks.zip us).filterMap (fun p => if p.1 = g then some p.2 else none)

/-- Modelled from the header (`distinct_hashes`) and spec section 3: a table
computing a DISTINCT-qualified aggregate owns a nested sub-table of the same
structure, keyed by the aggregate's input value scoped to the outer group;
the sub-table is pure deduplication, its rows carry no aggregate state. -/
structure DistinctTable (K V S : Type) where
  outer : HT K S
  inner : HT (K × V) Unit

/-- The update pass of a DISTINCT aggregate: every batch position resolves
to its outer row address, but only positions in the `new_groups` selection
of the nested sub-table invoke the aggregate's update; the rest are
no-ops. -/
def selectOps (agg : AggregateFunction V S) (addrs : List Nat) (vs : List V)
    (newSel : List Nat) : List (Nat × (S → S)) :=
  ((addrs.zip vs).enum).map
    (fun p => (p.2.1, if p.1 ∈ newSel then (fun s => agg.update s p.2.2) else id))

/-- Modelled from the spec (section 4.5, DISTINCT routing): `AddChunk` for a
DISTINCT-qualified aggregate.  Outer groups are found or created as usual;
the (group, value) pairs are routed through the nested sub-table, and the
outer aggregate's update runs only for pairs newly inserted there. -/
def AddChunkDistinct [DecidableEq K] [DecidableEq V] (f : K → Nat) (fp : K × V → Nat)
    (agg : AggregateFunction V S) (t : DistinctTable K V S) (batch : List (K × V)) :
    Option (DistinctTable K V S) :=
  match FindOrCreateGroupsNoHashes f agg.init t.outer (batch.map Prod.fst) with
  | none => none
  | some (outer1, addrs, _) =>
    match FindOrCreateGroupsNoHashes fp () t.inner batch with
    | none => none
    | some (inner1, _, newSel) =>
      some ⟨applyUpdates outer1 (selectOps agg addrs (batch.map Prod.snd) newSel), inner1⟩

/-- The COUNT aggregate: state is a counter, update ignores its input. -/
def countAgg (I : Type) : AggregateFunction I Nat :=
  ⟨0, fun s _ => s + 1, fun a b => a + b⟩

/-! ## Aggregate-state lifecycle accounting

Modelled from the spec (section 4.5, destructor pass, and section 4.6):
ghost accounting of aggregate-state instances.  Each state instance is
created exactly once by the catalog's initialize function (on group
creation, or for the fresh copies made when relocation rebuilds the rows)
and must be passed to the destroy function exactly once: relocation
(resize/merge rebuild) destroys the old copies it drops, teardown
(`Destroy`/`CallDestructors`) destroys the copies still live. -/

/-- One initialize or destroy call on a state instance, identified by a
ghost id. -/
inductive DtorEvent where
  | stInit (id : Nat)
  | stDestroy (id : Nat)
deriving DecidableEq

/-- Ghost lifecycle state of one table: the ids of live state instances,
the next fresh id, and the log of initialize/destroy calls so far. -/
structure LifeState where
  live : List Nat
  next : Nat
  log : List DtorEvent

/-- A freshly constructed table: no states, empty log. -/
def initialLife : LifeState := ⟨[], 0, []⟩

/-- Group creation (`AddChunk`/`FindOrCreateGroups`/`Combine` creating `n`
new groups): `n` fresh states are initialized. -/
def createStates (st : LifeState) (n : Nat) : LifeState :=
  ⟨st.live ++ List.range' st.next n, st.next + n,
   st.log ++ (List.range' st.next n).map DtorEvent.stInit⟩

/-- Relocation (`Resize`, or the rebuild half of a merge): every live row is
rebuilt as a fresh initialized copy, its old copy is combined in and then
destroyed exactly once by `CallDestructors`. -/
def relocateStates (st : LifeState) : LifeState :=
  ⟨List.range' st.next st.live.length, st.next + st.live.length,
   st.log ++ (List.range' st.next st.live.length).map DtorEvent.stInit
          ++ st.live.map DtorEvent.stDestroy⟩

/-- Teardown (`Destroy`): every still-live state instance is destroyed. -/
def teardownStates (st : LifeState) : LifeState :=
  ⟨[], st.next, st.log ++ st.live.map DtorEvent.stDestroy⟩

/-- The lifecycle-relevant operations of a table's life. -/
inductive LifeOp where
  | create (n : Nat)
  | relocate

/-- Run a sequence of lifecycle operations. -/
def runLifeOps : LifeState → List LifeOp → LifeState
  | st, [] => st
  | st, LifeOp.create n :: ops => runLifeOps (createStates st n) ops
  | st, LifeOp.relocate :: ops => runLifeOps (relocateStates st) ops

/-- A full table life: construction, a sequence of mutations, teardown. -/
def tableLife (ops : List LifeOp) : LifeState :=
  teardownStates (runLifeOps initialLife ops)

/-- Number of initialize calls on a given state instance. -/
def countInit (log : List DtorEvent) (id : Nat) : Nat := log.count (DtorEvent.stInit id)

/-- Number of destroy calls on a given state instance. -/
def countDestroy (log : List DtorEvent) (id : Nat) : Nat := log.count (DtorEvent.stDestroy id)

/-! ## Well-formedness invariant -/

/-- Forward wrap-around distance from slot `a` to slot `b` in a table of
the given capacity. -/
def distWrap (cap a b : Nat) : Nat := (b + cap - a) % cap

/-- The linear-probing well-formedness invariant, modelled from spec section
3 ("Hash storage") and section 4.3: the hash array has exactly `capacity`
slots; every stored row's hash field is the hash of its group key; group
keys are pairwise distinct; every filled slot points at a valid row and
caches that row's hash prefix; distinct slots point at distinct rows; every
row is pointed at by some slot; and the probe chain from a row's home slot
to its slot has no empty slot (linear probing never leaves a gap). -/
structure WF (f : K → Nat) (ht : HT K S) : Prop where
  capPos : 0 < ht.capacity
  slotsLen : ht.slots.length = ht.capacity
  rowHashes : ∀ r ∈ ht.rows, r.rowHash = f r.group
  groupsNodup : (ht.rows.map Row.group).Nodup
  slotSound : ∀ i s, ht.slotAt i = some s →
    ∃ row, ht.rows.get? s.2 = some row ∧ s.1 = hashPrefixOf row.rowHash
  slotInj : ∀ i j s t, ht.slotAt i = some s → ht.slotAt j = some t → s.2 = t.2 → i = j
  rowPlaced : ∀ rIdx < ht.rows.length, ∃ i s, ht.slotAt i = some s ∧ s.2 = rIdx
  chain : ∀ i s row, ht.slotAt i = some s → ht.rows.get? s.2 = some row →
    ∀ d < distWrap ht.capacity (ht.homeOf row.rowHash) i,
      ht.slotAt ((ht.homeOf row.rowHash + d) % ht.capacity) ≠ none

/-- Decidable check for the slot-soundness and probe-chain parts of `WF` at
one slot. -/
def slotCheck [DecidableEq K] (ht : HT K S) (i : Nat) : Bool :=
  match ht.slotAt i with
  | none => true
  | some s =>
    match ht.rows.get? s.2 with
    | none => false
    | some row =>
      decide (s.1 = hashPrefixOf row.rowHash) &&
      ((List.range (distWrap ht.capacity (ht.homeOf row.rowHash) i)).all
        (fun d => (ht.slotAt ((ht.homeOf row.rowHash + d) % ht.capacity)).isSome))

/-- Executable well-formedness check, sound for `WF` (see `WF_of_WFb`). -/
def WFb [DecidableEq K] (f : K → Nat) (ht : HT K S) : Bool :=
  decide (0 < ht.capacity) &&
  decide (ht.slots.length = ht.capacity) &&
  ht.rows.all (fun r => decide (r.rowHash = f r.group)) &&
  decide ((ht.rows.map Row.group).Nodup) &&
  (List.range ht.capacity).all (fun i => slotCheck ht i) &&
  (List.range ht.capacity).all (fun i =>
    (List.range ht.capacity).all (fun j =>
      decide (i = j) ||
      match ht.slotAt i, ht.slotAt j with
      | some s, some t => decide (s.2 ≠ t.2)
      | _, _ => true)) &&
  (List.range ht.rows.length).all (fun rIdx =>
    (List.range ht.capacity).any (fun i =>
      match ht.slotAt i with
      | some s => decide (s.2 = rIdx)
      | none => false))

/-- Concrete example table under the length hasher: groups `"x"` (count 7)
and `"y"` (count 2), both hashing to 1, stored in slots 1 and 2. -/
def exCombineA : HT String Nat :=
  ⟨4, [none, some (0, 0), some (0, 1), none], [⟨"x", 1, 7⟩, ⟨"y", 1, 2⟩]⟩

/-- Concrete example table under the length hasher: group `"x"` (count 5). -/
def exCombineB : HT String Nat :=
  ⟨4, [none, some (0, 0), none, none], [⟨"x", 1, 5⟩]⟩

/-- Concrete example table under the length hasher: group `"zzz"` (count 4),
disjoint from the groups of `exCombineA`. -/
def exDisjointB : HT String Nat :=
  ⟨4, [none, none, none, some (0, 0)], [⟨"zzz", 3, 4⟩]⟩

/-- Concrete empty DISTINCT-aggregate table (outer groups are `Nat` keys,
inputs are `Nat` values, COUNT state is `Nat`). -/
def exDistinct0 : DistinctTable Nat Nat Nat :=
  ⟨emptyHT Nat Nat 4, emptyHT (Nat × Nat) Unit 4⟩

/-! ## Basic slot and arithmetic lemmas -/

theorem slotAt_none_of_ge {ht : HT K S} {i : Nat} (h : ht.slots.length ≤ i) :
    ht.slotAt i = none := by
  unfold HT.slotAt List.getD
  rw [List.get?_eq_none.2 h]
  rfl

theorem lt_of_slotAt_some {ht : HT K S} {i : Nat} {s : Nat × Nat}
    (h : ht.slotAt i = some s) : i < ht.slots.length := by
  by_contra hlt
  rw [slotAt_none_of_ge (Nat.le_of_not_lt hlt)] at h
  exact Option.noConfusion h

theorem slotAt_eq_get? {ht : HT K S} {i : Nat} (h : i < ht.slots.length) :
    ht.slots.get? i = some (ht.slotAt i) := by
  unfold HT.slotAt List.getD
  rcases hg : ht.slots.get? i with _ | o
  · exact absurd (List.get?_eq_none.1 hg) (Nat.not_le_of_lt h)
  · rfl

theorem homeOf_lt {ht : HT K S} (hc : 0 < ht.capacity) {h : Nat} : ht.homeOf h < ht.capacity := by
  unfold HT.homeOf HT.bitmask
  exact Nat.lt_of_le_of_lt Nat.and_le_right (Nat.sub_lt hc Nat.one_pos)

theorem distWrap_lt {cap a b : Nat} (hc : 0 < cap) : distWrap cap a b < cap :=
  Nat.mod_lt _ hc

theorem mod_add_cancel {cap : Nat} (a : Nat) {x y : Nat} (hx : x < cap) (hy : y < cap)
    (h : (a + x) % cap = (a + y) % cap) : x = y := by
  have h2 : x ≡ y [MOD cap] := Nat.ModEq.add_left_cancel' a h
  unfold Nat.ModEq at h2
  rw [Nat.mod_eq_of_lt hx, Nat.mod_eq_of_lt hy] at h2
  exact h2

theorem add_distWrap {cap a b : Nat} (ha : a < cap) (hb : b < cap) :
    (a + distWrap cap a b) % cap = b := by
  unfold distWrap
  have e1 : (a + (b + cap - a) % cap) % cap = (a + (b + cap - a)) % cap :=
    (Nat.mod_modEq (b + cap - a) cap).add_left a
  have e2 : a + (b + cap - a) = b + cap := by omega
  rw [e1, e2, Nat.add_mod_right, Nat.mod_eq_of_lt hb]

theorem distWrap_of_add {cap a d : Nat} (hc : 0 < cap) (ha : a < cap) (hd : d < cap) :
    distWrap cap a ((a + d) % cap) = d := by
  refine mod_add_cancel a (distWrap_lt hc) hd ?_
  rw [add_distWrap ha (Nat.mod_lt _ hc)]

/-! ## findGroupIdx lemmas -/

section FindGroupIdx

variable [DecidableEq K]

theorem findGroupIdx_eq_none_iff {rows : List (Row K S)} {k : K} :
    findGroupIdx rows k = none ↔ k ∉ rows.map Row.group := by
  induction rows with
  | nil => simp [findGroupIdx]
  | cons r rs ih =>
    by_cases hg : r.group = k
    · simp [findGroupIdx, hg]
    · simp only [findGroupIdx, if_neg hg, List.map_cons, List.mem_cons, Option.map_eq_none', ih]
      constructor
      · intro h hmem
        rcases hmem with h1 | h1
        · exact hg h1.symm
        · exact h h1
      · intro h h1
        exact h (Or.inr h1)

theorem findGroupIdx_some_spec {rows : List (Row K S)} {k : K} {i : Nat}
    (h : findGroupIdx rows k = some i) :
    ∃ row, rows.get? i = some row ∧ row.group = k := by
  induction rows generalizing i with
  | nil => exact Option.noConfusion h
  | cons r rs ih =>
    by_cases hg : r.group = k
    · simp only [findGroupIdx, if_pos hg] at h
      cases h
      exact ⟨r, rfl, hg⟩
    · simp only [findGroupIdx, if_neg hg, Option.map_eq_some'] at h
      obtain ⟨j, hj, rfl⟩ := h
      obtain ⟨row, hrow, hk⟩ := ih hj
      exact ⟨row, hrow, hk⟩

theorem findGroupIdx_of_get? {rows : List (Row K S)} {k : K} {i : Nat} {row : Row K S}
    (hnd : (rows.map Row.group).Nodup) (hget : rows.get? i = some row) (hk : row.group = k) :
    findGroupIdx rows k = some i := by
  induction rows generalizing i with
  | nil => exact Option.noConfusion hget
  | cons r rs ih =>
    rcases i with _ | j
    · cases hget
      simp [findGroupIdx, hk]
    · simp only [List.get?_cons_succ] at hget
      have hkin : k ∈ rs.map Row.group := by
        rw [List.mem_map]
        obtain ⟨hlt, hg⟩ := List.get?_eq_some.1 hget
        exact ⟨row, by rw [← hg]; exact List.get_mem _ _ _, hk⟩
      have hne : r.group ≠ k := by
        intro he
        rw [List.map_cons, List.nodup_cons] at hnd
        exact hnd.1 (he ▸ hkin)
      simp only [findGroupIdx, if_neg hne]
      rw [ih (by rw [List.map_cons, List.nodup_cons] at hnd; exact hnd.2) hget]
      rfl

theorem findGroupIdx_append_left {xs ys : List (Row K S)} {k : K} {i : Nat}
    (h : findGroupIdx xs k = some i) : findGroupIdx (xs ++ ys) k = some i := by
  induction xs generalizing i with
  | nil => exact Option.noConfusion h
  | cons r rs ih =>
    by_cases hg : r.group = k
    · simp only [findGroupIdx, if_pos hg] at h ⊢
      exact h
    · simp only [findGroupIdx, if_neg hg, Option.map_eq_some'] at h ⊢
      obtain ⟨j, hj, rfl⟩ := h
      exact ⟨j, ih hj, rfl⟩

theorem findGroupIdx_append_of_not_mem {xs ys : List (Row K S)} {k : K}
    (h : k ∉ xs.map Row.group) :
    findGroupIdx (xs ++ ys) k = (findGroupIdx ys k).map (· + xs.length) := by
  induction xs with
  | nil => simp
  | cons r rs ih =>
    have hg : r.group ≠ k := fun he => h (by simp [← he])
    have h2 : k ∉ rs.map Row.group := fun hm => h (by simp [hm])
    rw [List.cons_append, findGroupIdx, if_neg hg, ih h2, List.length_cons]
    cases findGroupIdx ys k with
    | none => rfl
    | some j =>
      show some (j + rs.length + 1) = some (j + (rs.length + 1))
      rw [Nat.add_assoc]

theorem find?_state_eq_findGroupIdx (rows : List (Row K S)) (k : K) :
    (rows.find? (fun r => decide (r.group = k))).map Row.state
      = (findGroupIdx rows k).bind (fun i => (rows.get? i).map Row.state) := by
  induction rows with
  | nil => simp [findGroupIdx]
  | cons r rs ih =>
    by_cases hg : r.group = k
    · rw [List.find?_cons_of_pos _ (by simp [hg])]
      simp [findGroupIdx, hg]
    · rw [List.find?_cons_of_neg _ (by simp [hg])]
      simp only [findGroupIdx, if_neg hg, ih]
      cases findGroupIdx rs k <;> simp

theorem stateOf_eq_findGroupIdx {ht : HT K S} {k : K} :
    ht.stateOf k = (findGroupIdx ht.rows k).bind (fun i => (ht.rows.get? i).map Row.state) :=
  find?_state_eq_findGroupIdx ht.rows k

end FindGroupIdx

/-! ## Probe lemmas -/

theorem mod_shift {cap pos e : Nat} :
    ((pos + 1) % cap + e) % cap = (pos + (e + 1)) % cap := by
  rw [Nat.mod_add_mod, Nat.add_assoc, Nat.add_comm 1 e]

section Probe

variable [DecidableEq K] {f : K → Nat}

theorem probeLoop_skip {ht : HT K S} {k : K} {pf : Nat} (hc : 0 < ht.capacity) :
    ∀ (d fuel pos : Nat), pos < ht.capacity → d ≤ fuel →
    (∀ e < d, ∃ s, ht.slotAt ((pos + e) % ht.capacity) = some s ∧
        ¬(s.1 = pf ∧ (ht.rows.get? s.2).map Row.group = some k)) →
    probeLoop ht k pf fuel pos = probeLoop ht k pf (fuel - d) ((pos + d) % ht.capacity) := by
  intro d
  induction d with
  | zero =>
    intro fuel pos hpos _ _
    rw [Nat.add_zero, Nat.mod_eq_of_lt hpos, Nat.sub_zero]
  | succ d ih =>
    intro fuel pos hpos hd hocc
    obtain ⟨s, hs, hns⟩ := hocc 0 (Nat.succ_pos d)
    rw [Nat.add_zero, Nat.mod_eq_of_lt hpos] at hs
    rcases fuel with _ | f
    · exact absurd hd (by omega)
    have step : probeLoop ht k pf (f + 1) pos = probeLoop ht k pf f ((pos + 1) % ht.capacity) := by
      simp only [probeLoop, hs, if_neg hns]
    rw [step, ih f ((pos + 1) % ht.capacity) (Nat.mod_lt _ hc) (by omega) ?_]
    · rw [mod_shift]
      congr 1
      omega
    · intro e he
      obtain ⟨t, ht1, ht2⟩ := hocc (e + 1) (by omega)
      exact ⟨t, by rw [mod_shift]; exact ht1, ht2⟩

theorem probeLoop_path {ht : HT K S} {k : K} {pf : Nat} (hc : 0 < ht.capacity) :
    ∀ (fuel pos : Nat) (res : Nat ⊕ Nat), pos < ht.capacity →
    probeLoop ht k pf fuel pos = some res →
    ∃ d < fuel,
      (∀ e < d, ∃ s, ht.slotAt ((pos + e) % ht.capacity) = some s ∧
          ¬(s.1 = pf ∧ (ht.rows.get? s.2).map Row.group = some k)) ∧
      match res with
      | Sum.inl r => ∃ s, ht.slotAt ((pos + d) % ht.capacity) = some s ∧ s.2 = r ∧
          s.1 = pf ∧ (ht.rows.get? r).map Row.group = some k
      | Sum.inr j => j = (pos + d) % ht.capacity ∧ ht.slotAt j = none := by
  intro fuel
  induction fuel with
  | zero => intro pos res _ h; exact Option.noConfusion h
  | succ f ih =>
    intro pos res hpos h
    rcases hs : ht.slotAt pos with _ | s
    · simp only [probeLoop, hs] at h
      cases h
      refine ⟨0, Nat.succ_pos f, fun e he => absurd he (Nat.not_lt_zero e), ?_⟩
      rw [Nat.add_zero, Nat.mod_eq_of_lt hpos]
      exact ⟨rfl, hs⟩
    · by_cases hm : s.1 = pf ∧ (ht.rows.get? s.2).map Row.group = some k
      · simp only [probeLoop, hs, if_pos hm] at h
        cases h
        refine ⟨0, Nat.succ_pos f, fun e he => absurd he (Nat.not_lt_zero e), ?_⟩
        rw [Nat.add_zero, Nat.mod_eq_of_lt hpos]
        exact ⟨s, hs, rfl, hm.1, hm.2⟩
      · simp only [probeLoop, hs, if_neg hm] at h
        obtain ⟨d, hd, hocc, hres⟩ := ih ((pos + 1) % ht.capacity) res (Nat.mod_lt _ hc) h
        refine ⟨d + 1, by omega, ?_, ?_⟩
        · intro e he
          rcases e with _ | e
          · rw [Nat.add_zero, Nat.mod_eq_of_lt hpos]
            exact ⟨s, hs, hm⟩
          · obtain ⟨t, ht1, ht2⟩ := hocc e (by omega)
            rw [mod_shift] at ht1
            exact ⟨t, ht1, ht2⟩
        · rcases res with r | j
          · obtain ⟨t, ht1, ht2⟩ := hres
            rw [mod_shift] at ht1
            exact ⟨t, ht1, ht2⟩
          · obtain ⟨hj, hempty⟩ := hres
            rw [mod_shift] at hj
            exact ⟨hj, hempty⟩

theorem exists_empty_slot {ht : HT K S} (hwf : WF f ht) (hroom : ht.entries < ht.capacity) :
    ∃ i < ht.capacity, ht.slotAt i = none := by
  by_contra hno
  push_neg at hno
  have hocc : ∀ i < ht.capacity, ∃ s, ht.slotAt i = some s := by
    intro i hi
    rcases hs : ht.slotAt i with _ | s
    · exact absurd hs (hno i hi)
    · exact ⟨s, rfl⟩
  have hcard : (Finset.range ht.capacity).card ≤ (Finset.range ht.entries).card := by
    refine Finset.card_le_card_of_injOn
      (fun i => ((ht.slotAt i).map Prod.snd).getD 0) ?_ ?_
    · intro i hi
      rw [Finset.mem_range] at hi
      obtain ⟨s, hs⟩ := hocc i hi
      obtain ⟨row, hrow, _⟩ := hwf.slotSound i s hs
      rw [Finset.mem_range]
      simp only [hs, Option.map_some', Option.getD_some]
      exact (List.get?_eq_some.1 hrow).1
    · intro i hi j hj hij
      rw [Finset.mem_coe, Finset.mem_range] at hi hj
      obtain ⟨s, hs⟩ := hocc i hi
      obtain ⟨t, htj⟩ := hocc j hj
      simp only [hs, htj, Option.map_some', Option.getD_some] at hij
      exact hwf.slotInj i j s t hs htj hij
  rw [Finset.card_range, Finset.card_range] at hcard
  omega

theorem get?_mem {α : Type} {l : List α} {i : Nat} {a : α} (h : l.get? i = some a) : a ∈ l := by
  obtain ⟨hlt, hg⟩ := List.get?_eq_some.1 h
  rw [← hg]
  exact List.get_mem _ _ _

theorem probe_found {ht : HT K S} (hwf : WF f ht) {k : K} {r : Nat} {row : Row K S}
    (hr : ht.rows.get? r = some row) (hg : row.group = k) :
    probe ht k (f k) = some (Sum.inl r) := by
  obtain ⟨i, s, hi, hs2⟩ := hwf.rowPlaced r (List.get?_eq_some.1 hr).1
  obtain ⟨row', hrow', hpfx⟩ := hwf.slotSound i s hi
  rw [hs2, hr] at hrow'
  cases hrow'
  have hhash : row.rowHash = f k := by rw [hwf.rowHashes row (get?_mem hr), hg]
  have hicap : i < ht.capacity := by
    have h0 := lt_of_slotAt_some hi
    rwa [hwf.slotsLen] at h0
  have hhome : ht.homeOf (f k) < ht.capacity := homeOf_lt hwf.capPos
  have hdcap : distWrap ht.capacity (ht.homeOf (f k)) i < ht.capacity := distWrap_lt hwf.capPos
  have hchain := hwf.chain i s row hi (by rw [hs2]; exact hr)
  rw [hhash] at hchain
  have hpath : ∀ e < distWrap ht.capacity (ht.homeOf (f k)) i,
      ∃ t, ht.slotAt ((ht.homeOf (f k) + e) % ht.capacity) = some t ∧
      ¬(t.1 = hashPrefixOf (f k) ∧ (ht.rows.get? t.2).map Row.group = some k) := by
    intro e he
    have hocc := hchain e he
    rcases hocc' : ht.slotAt ((ht.homeOf (f k) + e) % ht.capacity) with _ | t
    · exact absurd hocc' hocc
    refine ⟨t, rfl, ?_⟩
    rintro ⟨ht1, ht2⟩
    obtain ⟨rowe, hrowe, hge⟩ : ∃ rowe, ht.rows.get? t.2 = some rowe ∧ rowe.group = k := by
      rcases hre : ht.rows.get? t.2 with _ | rowe
      · rw [hre] at ht2; exact Option.noConfusion ht2
      · rw [hre] at ht2; exact ⟨rowe, rfl, by injection ht2⟩
    have h1 : findGroupIdx ht.rows k = some r := findGroupIdx_of_get? hwf.groupsNodup hr hg
    have h2 : findGroupIdx ht.rows k = some t.2 :=
      findGroupIdx_of_get? hwf.groupsNodup hrowe hge
    have ht2r : t.2 = r := by rw [h1] at h2; injection h2; omega
    have hieq : (ht.homeOf (f k) + e) % ht.capacity = i :=
      hwf.slotInj _ i t s hocc' hi (by rw [ht2r, hs2])
    have he2 : distWrap ht.capacity (ht.homeOf (f k)) ((ht.homeOf (f k) + e) % ht.capacity) = e :=
      distWrap_of_add hwf.capPos hhome (lt_trans he hdcap)
    rw [hieq] at he2
    omega
  unfold probe
  rw [probeLoop_skip hwf.capPos (distWrap ht.capacity (ht.homeOf (f k)) i) ht.capacity
    (ht.homeOf (f k)) hhome (le_of_lt hdcap) hpath]
  rw [add_distWrap hhome hicap]
  obtain ⟨m, hm⟩ : ∃ m, ht.capacity - distWrap ht.capacity (ht.homeOf (f k)) i = m + 1 :=
    ⟨ht.capacity - distWrap ht.capacity (ht.homeOf (f k)) i - 1, by omega⟩
  rw [hm]
  simp only [probeLoop, hi]
  rw [if_pos ⟨by rw [hpfx, hhash], by rw [hs2, hr, Option.map_some', hg]⟩, hs2]

theorem probe_empty_of_not_mem {ht : HT K S} (hwf : WF f ht) (hroom : ht.entries < ht.capacity)
    {k : K} (hk : k ∉ ht.groups) (h : Nat) :
    ∃ j, probe ht k h = some (Sum.inr j) ∧ ht.slotAt j = none ∧ j < ht.capacity ∧
      ∀ e < distWrap ht.capacity (ht.homeOf h) j,
        ht.slotAt ((ht.homeOf h + e) % ht.capacity) ≠ none := by
  obtain ⟨i0, hi0cap, hi0⟩ := exists_empty_slot hwf hroom
  have hhome : ht.homeOf h < ht.capacity := homeOf_lt hwf.capPos
  set home := ht.homeOf h with hhome_def
  have hex : ∃ e, ht.slotAt ((home + e) % ht.capacity) = none := by
    refine ⟨distWrap ht.capacity home i0, ?_⟩
    rw [add_distWrap hhome hi0cap]
    exact hi0
  classical
  set d := Nat.find hex with hd_def
  have hdspec : ht.slotAt ((home + d) % ht.capacity) = none := Nat.find_spec hex
  have hdmin : ∀ e < d, ht.slotAt ((home + e) % ht.capacity) ≠ none :=
    fun e he => Nat.find_min hex he
  have hdcap : d < ht.capacity := by
    have : d ≤ distWrap ht.capacity home i0 := by
      apply Nat.find_min'
      rw [add_distWrap hhome hi0cap]
      exact hi0
    exact Nat.lt_of_le_of_lt this (distWrap_lt hwf.capPos)
  have hpath : ∀ e < d, ∃ s, ht.slotAt ((home + e) % ht.capacity) = some s ∧
      ¬(s.1 = hashPrefixOf h ∧ (ht.rows.get? s.2).map Row.group = some k) := by
    intro e he
    rcases hse : ht.slotAt ((home + e) % ht.capacity) with _ | s
    · exact absurd hse (hdmin e he)
    refine ⟨s, rfl, ?_⟩
    rintro ⟨_, ht2⟩
    obtain ⟨rowe, hrowe, hge⟩ : ∃ rowe, ht.rows.get? s.2 = some rowe ∧ rowe.group = k := by
      rcases hre : ht.rows.get? s.2 with _ | rowe
      · rw [hre] at ht2; exact Option.noConfusion ht2
      · rw [hre] at ht2; exact ⟨rowe, rfl, by injection ht2⟩
    exact hk (by rw [← hge]; exact List.mem_map_of_mem Row.group (get?_mem hrowe))
  refine ⟨(home + d) % ht.capacity, ?_, hdspec, Nat.mod_lt _ hwf.capPos, ?_⟩
  · unfold probe
    rw [probeLoop_skip hwf.capPos d ht.capacity home hhome (le_of_lt hdcap) hpath]
    have hfuel : ∃ m, ht.capacity - d = m + 1 := ⟨ht.capacity - d - 1, by omega⟩
    obtain ⟨m, hm⟩ := hfuel
    rw [hm]
    simp only [probeLoop, hdspec]
  · intro e he
    rw [distWrap_of_add hwf.capPos hhome hdcap] at he
    exact hdmin e he

end Probe

/-! ## Insert specification -/

theorem getD_set_self {α : Type} {l : List α} {j : Nat} (h : j < l.length) (v d : α) :
    (l.set j v).getD j d = v := by
  unfold List.getD
  rw [List.get?_set_eq, List.get?_eq_get h]
  rfl

theorem getD_set_ne {α : Type} {l : List α} {i j : Nat} (h : j ≠ i) (v d : α) :
    (l.set j v).getD i d = l.getD i d := by
  unfold List.getD
  rw [List.get?_set_ne _ _ h]

section Insert

variable [DecidableEq K] {f : K → Nat}

theorem WF_insert {ht : HT K S} (hwf : WF f ht) (init : S) {k : K} {j : Nat}
    (hk : k ∉ ht.groups) (hj : ht.slotAt j = none) (hjcap : j < ht.capacity)
    (hpathj : ∀ e < distWrap ht.capacity (ht.homeOf (f k)) j,
        ht.slotAt ((ht.homeOf (f k) + e) % ht.capacity) ≠ none) :
    WF f ⟨ht.capacity, ht.slots.set j (some (hashPrefixOf (f k), ht.rows.length)),
          ht.rows ++ [⟨k, f k, init⟩]⟩ := by
  have hjlen : j < ht.slots.length := by rw [hwf.slotsLen]; exact hjcap
  set ht' : HT K S :=
    ⟨ht.capacity, ht.slots.set j (some (hashPrefixOf (f k), ht.rows.length)),
     ht.rows ++ [⟨k, f k, init⟩]⟩ with hht'
  have hslot_self : ht'.slotAt j = some (hashPrefixOf (f k), ht.rows.length) := by
    show (ht.slots.set j (some (hashPrefixOf (f k), ht.rows.length))).getD j none = _
    exact getD_set_self hjlen _ _
  have hslot_ne : ∀ i, j ≠ i → ht'.slotAt i = ht.slotAt i := by
    intro i hne
    show (ht.slots.set j (some (hashPrefixOf (f k), ht.rows.length))).getD i none = _
    exact getD_set_ne hne _ _
  have hget_old : ∀ (r : Nat), ∀ row, ht.rows.get? r = some row →
      ht'.rows.get? r = some row := by
    intro r row hrow
    show (ht.rows ++ [(⟨k, f k, init⟩ : Row K S)]).get? r = some row
    rw [List.get?_append (List.get?_eq_some.1 hrow).1]
    exact hrow
  have hget_new : ht'.rows.get? ht.rows.length = some ⟨k, f k, init⟩ :=
    List.get?_concat_length ht.rows ⟨k, f k, init⟩
  have hfill : ∀ q, ht.slotAt q ≠ none → ht'.slotAt q ≠ none := by
    intro q hq
    by_cases hqj : j = q
    · subst hqj
      rw [hslot_self]
      exact Option.noConfusion
    · rw [hslot_ne q hqj]
      exact hq
  constructor
  · exact hwf.capPos
  · show (ht.slots.set j _).length = ht.capacity
    rw [List.length_set]
    exact hwf.slotsLen
  · intro r hr
    rcases List.mem_append.1 hr with h1 | h1
    · exact hwf.rowHashes r h1
    · rw [List.mem_singleton.1 h1]
  · show (List.map Row.group (ht.rows ++ [⟨k, f k, init⟩])).Nodup
    rw [List.map_append, List.nodup_append]
    refine ⟨hwf.groupsNodup, List.nodup_singleton k, ?_⟩
    intro a ha hb
    rw [List.map_singleton, List.mem_singleton] at hb
    subst hb
    exact hk ha
  · intro i s hsi
    by_cases hij : j = i
    · subst hij
      rw [hslot_self] at hsi
      cases hsi
      exact ⟨⟨k, f k, init⟩, hget_new, rfl⟩
    · rw [hslot_ne i hij] at hsi
      obtain ⟨row, hrow, hp⟩ := hwf.slotSound i s hsi
      exact ⟨row, hget_old _ row hrow, hp⟩
  · intro i i' s t hsi hsi' heq
    by_cases hij : j = i <;> by_cases hij' : j = i'
    · rw [← hij, ← hij']
    · subst hij
      rw [hslot_self] at hsi
      cases hsi
      rw [hslot_ne i' hij'] at hsi'
      obtain ⟨row, hrow, _⟩ := hwf.slotSound i' t hsi'
      have hlt := (List.get?_eq_some.1 hrow).1
      simp only [] at heq
      omega
    · subst hij'
      rw [hslot_self] at hsi'
      cases hsi'
      rw [hslot_ne i hij] at hsi
      obtain ⟨row, hrow, _⟩ := hwf.slotSound i s hsi
      have hlt := (List.get?_eq_some.1 hrow).1
      simp only [] at heq
      omega
    · rw [hslot_ne i hij] at hsi
      rw [hslot_ne i' hij'] at hsi'
      exact hwf.slotInj i i' s t hsi hsi' heq
  · intro r hr
    have hr' : r < ht.rows.length + 1 := by
      rw [hht'] at hr
      simpa using hr
    rcases Nat.lt_succ_iff_lt_or_eq.1 hr' with h1 | h1
    · obtain ⟨i, s, hi, hs2⟩ := hwf.rowPlaced r h1
      have hij : j ≠ i := by
        intro he
        rw [← he, hj] at hi
        exact Option.noConfusion hi
      exact ⟨i, s, by rw [hslot_ne i hij]; exact hi, hs2⟩
    · exact ⟨j, (hashPrefixOf (f k), ht.rows.length), hslot_self, h1.symm⟩
  · intro i s row hsi hrow d hd
    by_cases hij : j = i
    · subst hij
      rw [hslot_self] at hsi
      cases hsi
      rw [hget_new] at hrow
      cases hrow
      exact hfill _ (hpathj d hd)
    · rw [hslot_ne i hij] at hsi
      obtain ⟨row0, hrow0, _⟩ := hwf.slotSound i s hsi
      have hr0 : row0 = row := by
        rw [hget_old _ row0 hrow0] at hrow
        injection hrow
      subst hr0
      exact hfill _ (hwf.chain i s row0 hsi hrow0 d hd)

theorem findOrCreate_spec {ht : HT K S} (hwf : WF f ht) (init : S) (k : K)
    (hroom : k ∉ ht.groups → ht.entries < ht.capacity) :
    ∃ ht1 addr isNew, findOrCreate init ht k (f k) = some (ht1, addr, isNew) ∧ WF f ht1 ∧
      ht1.capacity = ht.capacity ∧
      ((findGroupIdx ht.rows k = some addr ∧ isNew = false ∧ ht1 = ht) ∨
       (k ∉ ht.groups ∧ isNew = true ∧ addr = ht.entries ∧
        ht1.rows = ht.rows ++ [⟨k, f k, init⟩])) := by
  rcases hfi : findGroupIdx ht.rows k with _ | r
  · have hk : k ∉ ht.groups := findGroupIdx_eq_none_iff.1 hfi
    obtain ⟨j, hp, hj, hjcap, hpathj⟩ := probe_empty_of_not_mem hwf (hroom hk) hk (f k)
    refine ⟨⟨ht.capacity, ht.slots.set j (some (hashPrefixOf (f k), ht.rows.length)),
             ht.rows ++ [⟨k, f k, init⟩]⟩, ht.entries, true, ?_, ?_, rfl,
            Or.inr ⟨hk, rfl, rfl, rfl⟩⟩
    · unfold findOrCreate
      rw [hp]
      rfl
    · exact WF_insert hwf init hk hj hjcap hpathj
  · obtain ⟨row, hrow, hg⟩ := findGroupIdx_some_spec hfi
    refine ⟨ht, r, false, ?_, hwf, rfl, Or.inl ⟨rfl, rfl, rfl⟩⟩
    unfold findOrCreate
    rw [probe_found hwf hrow hg]

end Insert

/-! ## Batch find-or-create specification -/

section BatchSpec

variable [DecidableEq K] {f : K → Nat}

theorem findGroupIdx_mem {rows : List (Row K S)} {k : K} {r : Nat}
    (h : findGroupIdx rows k = some r) : k ∈ rows.map Row.group := by
  obtain ⟨row, hrow, hg⟩ := findGroupIdx_some_spec h
  rw [← hg]
  exact List.mem_map_of_mem Row.group (get?_mem hrow)

theorem findOrCreateLoopNoHashes_spec {ht : HT K S} (hwf : WF f ht) (init : S)
    (ks : List K) (i0 : Nat) (hroom : ht.rows.length + ks.length ≤ ht.capacity) :
    ∃ ht2 addrs newSel,
      findOrCreateLoopNoHashes f init ht ks i0 = some (ht2, addrs, newSel) ∧
      WF f ht2 ∧ ht2.capacity = ht.capacity ∧
      ht2.rows = ht.rows ++ (newGroupsList ht.groups ks).map (fun k => ⟨k, f k, init⟩) ∧
      addrs = ks.map (fun k => (findGroupIdx ht2.rows k).getD 0) ∧
      newSel = newIndices ht.groups ks i0 := by
  induction ks generalizing ht i0 with
  | nil =>
    exact ⟨ht, [], [], rfl, hwf, rfl, by simp [newGroupsList], rfl, rfl⟩
  | cons k ks ih =>
    rw [List.length_cons] at hroom
    obtain ⟨ht1, addr, isNew, heq, hwf1, hcap1, hcase⟩ :=
      findOrCreate_spec hwf init k (fun _ => by
        show ht.rows.length < ht.capacity
        omega)
    rcases hcase with ⟨hfi, hnew, hht1⟩ | ⟨hk, hnew, haddr, hrows1⟩
    · subst hnew
      rw [hht1] at heq hwf1
      have hmem : k ∈ ht.groups := findGroupIdx_mem hfi
      obtain ⟨ht2, addrs', newSel', hloop, hwf2, hcap2, hrows2, haddrs2, hsel2⟩ :=
        ih hwf1 (i0 + 1) (by omega)
      refine ⟨ht2, addr :: addrs', newSel', ?_, hwf2, hcap2, ?_, ?_, ?_⟩
      · simp only [findOrCreateLoopNoHashes, heq, hloop, List.nil_append, if_false,
          Bool.false_eq_true]
      · rw [hrows2, newGroupsList, if_pos hmem]
      · rw [List.map_cons, ← haddrs2]
        have hag : findGroupIdx ht2.rows k = some addr := by
          rw [hrows2]
          exact findGroupIdx_append_left hfi
        rw [hag]
        rfl
      · rw [hsel2, newIndices, if_pos hmem]
    · subst hnew
      subst haddr
      have hgroups1 : ht1.groups = ht.groups ++ [k] := by
        show ht1.rows.map Row.group = _
        rw [hrows1, List.map_append]
        rfl
      obtain ⟨ht2, addrs', newSel', hloop, hwf2, hcap2, hrows2, haddrs2, hsel2⟩ :=
        ih hwf1 (i0 + 1) (by
          show ht1.rows.length + ks.length ≤ ht1.capacity
          rw [hrows1, List.length_append, List.length_singleton, hcap1]
          omega)
      refine ⟨ht2, ht.entries :: addrs', i0 :: newSel', ?_, hwf2, by rw [hcap2, hcap1], ?_, ?_, ?_⟩
      · simp only [findOrCreateLoopNoHashes, heq, hloop, if_true, List.singleton_append]
      · rw [hrows2, hrows1, newGroupsList, if_neg hk, hgroups1, List.map_cons, List.append_assoc]
        rfl
      · rw [List.map_cons, ← haddrs2]
        have hre : findGroupIdx ht2.rows k = some ht.entries := by
          rw [hrows2, hrows1, List.append_assoc, findGroupIdx_append_of_not_mem hk]
          have hhd : findGroupIdx ([(⟨k, f k, init⟩ : Row K S)] ++
              (newGroupsList ht1.groups ks).map (fun k => ⟨k, f k, init⟩)) k = some 0 := by
            show findGroupIdx ((⟨k, f k, init⟩ : Row K S) ::
              (newGroupsList ht1.groups ks).map (fun k => ⟨k, f k, init⟩)) k = some 0
            rw [findGroupIdx, if_pos rfl]
          rw [hhd]
          show some (0 + ht.rows.length) = some ht.rows.length
          rw [Nat.zero_add]
        rw [hre]
        rfl
      · rw [hsel2, newIndices, if_neg hk, hgroups1]

theorem findOrCreateLoopAddrOnly_present {ht : HT K S} (hwf : WF f ht) (init : S)
    (ks : List K) (hall : ∀ k ∈ ks, k ∈ ht.groups) :
    findOrCreateLoopAddrOnly f init ht ks =
      some (ht, ks.map (fun k => (findGroupIdx ht.rows k).getD 0)) := by
  induction ks with
  | nil => rfl
  | cons k ks ih =>
    have hmem : k ∈ ht.groups := hall k (List.mem_cons_self k ks)
    obtain ⟨row, hrmem, hg⟩ : ∃ row ∈ ht.rows, row.group = k := by
      obtain ⟨row, hrmem, hg⟩ := List.mem_map.1 hmem
      exact ⟨row, hrmem, hg⟩
    obtain ⟨r, hget⟩ := List.mem_iff_get?.1 hrmem
    have hfi : findGroupIdx ht.rows k = some r :=
      findGroupIdx_of_get? hwf.groupsNodup hget hg
    have hfc : findOrCreate init ht k (f k) = some (ht, r, false) := by
      unfold findOrCreate
      rw [probe_found hwf hget hg]
    simp only [findOrCreateLoopAddrOnly, hfc,
      ih (fun k' hk' => hall k' (List.mem_cons_of_mem k hk')), List.map_cons, hfi]
    rfl

end BatchSpec

/-! ## Overload equivalences -/

section Overloads

variable [DecidableEq K] {f : K → Nat}

theorem findOrCreateLoop_zip_eq (init : S) :
    ∀ (ks : List K) (ht : HT K S) (i0 : Nat),
    findOrCreateLoop init ht (ks.zip (ks.map f)) i0 = findOrCreateLoopNoHashes f init ht ks i0 := by
  intro ks
  induction ks with
  | nil => intro ht i0; rfl
  | cons k ks ih =>
    intro ht i0
    cases hfc : findOrCreate init ht k (f k) with
    | none =>
      simp only [List.map_cons, List.zip_cons_cons, findOrCreateLoop, findOrCreateLoopNoHashes,
        hfc]
    | some v =>
      obtain ⟨ht1, addr, isNew⟩ := v
      simp only [List.map_cons, List.zip_cons_cons, findOrCreateLoop, findOrCreateLoopNoHashes,
        hfc]
      rw [show List.zipWith Prod.mk ks (List.map f ks) = ks.zip (List.map f ks) from rfl,
        ih ht1 (i0 + 1)]

theorem findOrCreateLoopAddrOnly_eq (init : S) :
    ∀ (ks : List K) (ht : HT K S) (i0 : Nat),
    findOrCreateLoopAddrOnly f init ht ks =
      (findOrCreateLoopNoHashes f init ht ks i0).map (fun t => (t.1, t.2.1)) := by
  intro ks
  induction ks with
  | nil => intro ht i0; rfl
  | cons k ks ih =>
    intro ht i0
    cases hfc : findOrCreate init ht k (f k) with
    | none =>
      simp only [findOrCreateLoopAddrOnly, findOrCreateLoopNoHashes, hfc]
      rfl
    | some v =>
      obtain ⟨ht1, addr, isNew⟩ := v
      simp only [findOrCreateLoopAddrOnly, findOrCreateLoopNoHashes, hfc, ih ht1 (i0 + 1)]
      cases findOrCreateLoopNoHashes f init ht1 ks (i0 + 1) with
      | none => rfl
      | some w =>
        obtain ⟨ht2, addrs, newSel⟩ := w
        rfl

end Overloads

/-! ## newGroupsList lemmas -/

section NewGroups

variable [DecidableEq K]

theorem newGroupsList_subset : ∀ (gs ks : List K) (a : K),
    a ∈ newGroupsList gs ks → a ∈ ks ∧ a ∉ gs := by
  intro gs ks
  induction ks generalizing gs with
  | nil => intro a h; exact absurd h (List.not_mem_nil a)
  | cons k ks ih =>
    intro a h
    by_cases hk : k ∈ gs
    · rw [newGroupsList, if_pos hk] at h
      obtain ⟨h1, h2⟩ := ih gs a h
      exact ⟨List.mem_cons_of_mem k h1, h2⟩
    · rw [newGroupsList, if_neg hk] at h
      rcases List.mem_cons.1 h with h1 | h1
      · subst h1
        exact ⟨List.mem_cons_self a ks, hk⟩
      · obtain ⟨h2, h3⟩ := ih (gs ++ [k]) a h1
        exact ⟨List.mem_cons_of_mem k h2,
          fun hmem => h3 (List.mem_append_left [k] hmem)⟩

theorem mem_newGroupsList : ∀ (gs ks : List K) (a : K),
    a ∈ ks → a ∉ gs → a ∈ newGroupsList gs ks := by
  intro gs ks
  induction ks generalizing gs with
  | nil => intro a h; exact absurd h (List.not_mem_nil a)
  | cons k ks ih =>
    intro a h hgs
    by_cases hk : k ∈ gs
    · rw [newGroupsList, if_pos hk]
      rcases List.mem_cons.1 h with h1 | h1
      · subst h1; exact absurd hk hgs
      · exact ih gs a h1 hgs
    · rw [newGroupsList, if_neg hk]
      by_cases hak : a = k
      · subst hak
        exact List.mem_cons_self a _
      · rcases List.mem_cons.1 h with h1 | h1
        · exact absurd h1 hak
        · refine List.mem_cons_of_mem k (ih (gs ++ [k]) a h1 ?_)
          intro hmem
          rcases List.mem_append.1 hmem with h2 | h2
          · exact hgs h2
          · exact hak (List.mem_singleton.1 h2)

theorem newGroupsList_append_nodup : ∀ (gs ks : List K), gs.Nodup →
    (gs ++ newGroupsList gs ks).Nodup := by
  intro gs ks
  induction ks generalizing gs with
  | nil => intro h; simpa [newGroupsList] using h
  | cons k ks ih =>
    intro h
    by_cases hk : k ∈ gs
    · rw [newGroupsList, if_pos hk]
      exact ih gs h
    · rw [newGroupsList, if_neg hk]
      have h2 : (gs ++ [k]).Nodup := by
        rw [List.nodup_append]
        exact ⟨h, List.nodup_singleton k,
          fun a ha hb => hk (List.mem_singleton.1 hb ▸ ha)⟩
      have h3 := ih (gs ++ [k]) h2
      rwa [List.append_assoc, List.singleton_append] at h3

end NewGroups

/-! ## applyUpdates lemmas -/

section Updates

theorem modifyAt_length (u : Row K S → Row K S) :
    ∀ (rows : List (Row K S)) (n : Nat), (modifyAt u rows n).length = rows.length := by
  intro rows
  induction rows with
  | nil => intro n; rfl
  | cons r rs ih =>
    intro n
    cases n with
    | zero => rfl
    | succ m =>
      show (r :: modifyAt u rs m).length = (r :: rs).length
      simp [ih m]

theorem modifyAt_get? (u : Row K S → Row K S) :
    ∀ (rows : List (Row K S)) (n m : Nat),
    (modifyAt u rows n).get? m = if n = m then (rows.get? m).map u else rows.get? m := by
  intro rows
  induction rows with
  | nil =>
    intro n m
    show (List.nil.get? m : Option (Row K S)) = _
    rw [if_congr Iff.rfl rfl rfl]
    cases n <;> cases m <;> simp
  | cons r rs ih =>
    intro n m
    cases n with
    | zero =>
      cases m with
      | zero => rfl
      | succ m' => simp [modifyAt]
    | succ n' =>
      cases m with
      | zero => simp [modifyAt]
      | succ m' =>
        show (modifyAt u rs n').get? m' = _
        rw [ih n' m']
        by_cases h : n' = m'
        · rw [if_pos h, if_pos (by omega)]
          rfl
        · rw [if_neg h, if_neg (by omega)]
          rfl

theorem modifyAt_map_group (u : S → S) :
    ∀ (rows : List (Row K S)) (n : Nat),
    (modifyAt (fun r => ⟨r.group, r.rowHash, u r.state⟩) rows n).map Row.group
      = rows.map Row.group := by
  intro rows
  induction rows with
  | nil => intro n; rfl
  | cons r rs ih =>
    intro n
    cases n with
    | zero => rfl
    | succ m =>
      show Row.group r :: (modifyAt _ rs m).map Row.group = _
      rw [ih m]
      rfl

theorem findGroupIdx_congr [DecidableEq K] :
    ∀ {rows rows' : List (Row K S)}, rows'.map Row.group = rows.map Row.group →
    ∀ (k : K), findGroupIdx rows' k = findGroupIdx rows k := by
  intro rows
  induction rows with
  | nil =>
    intro rows' h k
    have : rows' = [] := by
      cases rows' with
      | nil => rfl
      | cons a l => exact absurd h (by simp)
    rw [this]
  | cons r rs ih =>
    intro rows' h k
    cases rows' with
    | nil => exact absurd h (by simp)
    | cons r' rs' =>
      simp only [List.map_cons, List.cons.injEq] at h
      rw [findGroupIdx, findGroupIdx, h.1, ih h.2 k]

end Updates

/-! ## WF and stateOf under in-place state updates -/

section UpdateWF

variable [DecidableEq K] {f : K → Nat}

theorem WF_modifyAt {ht : HT K S} (hwf : WF f ht) (u : S → S) (addr : Nat) :
    WF f ⟨ht.capacity, ht.slots,
          modifyAt (fun r => ⟨r.group, r.rowHash, u r.state⟩) ht.rows addr⟩ := by
  set uR : Row K S → Row K S := fun r => ⟨r.group, r.rowHash, u r.state⟩ with huR
  have hget : ∀ m, (modifyAt uR ht.rows addr).get? m =
      if addr = m then (ht.rows.get? m).map uR else ht.rows.get? m :=
    modifyAt_get? uR ht.rows addr
  have hget' : ∀ m row', (modifyAt uR ht.rows addr).get? m = some row' →
      ∃ row, ht.rows.get? m = some row ∧ row'.group = row.group ∧
        row'.rowHash = row.rowHash := by
    intro m row' hm
    rw [hget m] at hm
    by_cases he : addr = m
    · rw [if_pos he] at hm
      rcases hr : ht.rows.get? m with _ | row
      · rw [hr] at hm; exact Option.noConfusion hm
      · rw [hr] at hm
        injection hm with hm
        exact ⟨row, rfl, by rw [← hm], by rw [← hm]⟩
    · rw [if_neg he] at hm
      exact ⟨row', hm, rfl, rfl⟩
  constructor
  · exact hwf.capPos
  · exact hwf.slotsLen
  · intro r hr
    obtain ⟨m, hm⟩ := List.mem_iff_get?.1 hr
    obtain ⟨row, hrow, hgr, hh⟩ := hget' m r hm
    rw [hh, hgr]
    exact hwf.rowHashes row (get?_mem hrow)
  · show (List.map Row.group (modifyAt uR ht.rows addr)).Nodup
    rw [modifyAt_map_group]
    exact hwf.groupsNodup
  · intro i s hsi
    obtain ⟨row, hrow, hp⟩ := hwf.slotSound i s hsi
    rcases hr' : (modifyAt uR ht.rows addr).get? s.2 with _ | row'
    · rw [hget s.2] at hr'
      by_cases he : addr = s.2
      · rw [if_pos he, hrow] at hr'
        exact Option.noConfusion hr'
      · rw [if_neg he, hrow] at hr'
        exact Option.noConfusion hr'
    · obtain ⟨row0, hrow0, hgr, hh⟩ := hget' s.2 row' hr'
      rw [hrow] at hrow0
      injection hrow0 with hrow0
      exact ⟨row', rfl, by rw [hp, hh, hrow0]⟩
  · exact hwf.slotInj
  · intro r hr
    rw [show (⟨ht.capacity, ht.slots, modifyAt uR ht.rows addr⟩ : HT K S).rows =
        modifyAt uR ht.rows addr from rfl, modifyAt_length] at hr
    exact hwf.rowPlaced r hr
  · intro i s row' hsi hrow' d hd
    obtain ⟨row, hrow, hgr, hh⟩ := hget' s.2 row' hrow'
    rw [hh] at hd ⊢
    exact hwf.chain i s row hsi hrow d hd

theorem applyUpdates_slots : ∀ (ops : List (Nat × (S → S))) (ht : HT K S),
    (applyUpdates ht ops).slots = ht.slots ∧ (applyUpdates ht ops).capacity = ht.capacity := by
  intro ops
  induction ops with
  | nil => intro ht; exact ⟨rfl, rfl⟩
  | cons op ops ih =>
    intro ht
    obtain ⟨addr, u⟩ := op
    exact (ih _)

theorem applyUpdates_map_group : ∀ (ops : List (Nat × (S → S))) (ht : HT K S),
    (applyUpdates ht ops).rows.map Row.group = ht.rows.map Row.group := by
  intro ops
  induction ops with
  | nil => intro ht; rfl
  | cons op ops ih =>
    intro ht
    obtain ⟨addr, u⟩ := op
    rw [show applyUpdates ht ((addr, u) :: ops) =
      applyUpdates ⟨ht.capacity, ht.slots,
        modifyAt (fun r => ⟨r.group, r.rowHash, u r.state⟩) ht.rows addr⟩ ops from rfl]
    rw [ih _]
    exact modifyAt_map_group u ht.rows addr

theorem WF_applyUpdates {ht : HT K S} (hwf : WF f ht) (ops : List (Nat × (S → S))) :
    WF f (applyUpdates ht ops) := by
  induction ops generalizing ht with
  | nil => exact hwf
  | cons op ops ih =>
    obtain ⟨addr, u⟩ := op
    exact ih (WF_modifyAt hwf u addr)

theorem stateOf_modifyAt {ht : HT K S} (hnd : (ht.rows.map Row.group).Nodup)
    {k0 : K} {addr : Nat} (haddr : findGroupIdx ht.rows k0 = some addr) (u : S → S) (g : K) :
    (⟨ht.capacity, ht.slots,
      modifyAt (fun r => ⟨r.group, r.rowHash, u r.state⟩) ht.rows addr⟩ : HT K S).stateOf g
      = if g = k0 then (ht.stateOf g).map u else ht.stateOf g := by
  set uR : Row K S → Row K S := fun r => ⟨r.group, r.rowHash, u r.state⟩ with huR
  have hcongr : findGroupIdx (modifyAt uR ht.rows addr) g = findGroupIdx ht.rows g :=
    findGroupIdx_congr (modifyAt_map_group u ht.rows addr) g
  rw [stateOf_eq_findGroupIdx, stateOf_eq_findGroupIdx]
  show (findGroupIdx (modifyAt uR ht.rows addr) g).bind
      (fun i => ((modifyAt uR ht.rows addr).get? i).map Row.state) = _
  rw [hcongr]
  cases hfg : findGroupIdx ht.rows g with
  | none =>
    have hg0 : g ≠ k0 := by
      intro he
      rw [he, haddr] at hfg
      exact Option.noConfusion hfg
    rw [if_neg hg0]
    rfl
  | some r =>
    simp only [Option.some_bind]
    have hget := modifyAt_get? uR ht.rows addr r
    by_cases hgk : g = k0
    · rw [if_pos hgk]
      rw [hgk, haddr] at hfg
      injection hfg with he
      rw [hget, if_pos he]
      cases ht.rows.get? r with
      | none => rfl
      | some row => rfl
    · rw [if_neg hgk]
      have hne : addr ≠ r := by
        intro he
        subst he
        obtain ⟨rowg, hrowg, hgg⟩ := findGroupIdx_some_spec hfg
        obtain ⟨rowk, hrowk, hkk⟩ := findGroupIdx_some_spec haddr
        rw [hrowg] at hrowk
        injection hrowk with he2
        exact hgk (by rw [← hgg, he2, hkk])
      rw [hget, if_neg hne]

end UpdateWF

/-! ## State characterization of the update pass -/

section StateFold

variable [DecidableEq K] {f : K → Nat}

theorem exists_findGroupIdx_of_mem {ht : HT K S}
    (hnd : (ht.rows.map Row.group).Nodup) {k : K} (hk : k ∈ ht.groups) :
    ∃ r, findGroupIdx ht.rows k = some r := by
  obtain ⟨row, hrmem, hg⟩ := List.mem_map.1 hk
  obtain ⟨m, hm⟩ := List.mem_iff_get?.1 hrmem
  exact ⟨m, findGroupIdx_of_get? hnd hm hg⟩

theorem applyUpdates_stateOf {ht : HT K S} (hnd : (ht.rows.map Row.group).Nodup) :
    ∀ (kus : List (K × (S → S))), (∀ p ∈ kus, p.1 ∈ ht.groups) → ∀ (g : K),
    (applyUpdates ht (kus.map (fun p => ((findGroupIdx ht.rows p.1).getD 0, p.2)))).stateOf g
      = (ht.stateOf g).map
          (fun s => (kus.filterMap (fun p => if p.1 = g then some p.2 else none)).foldl
            (fun s u => u s) s) := by
  intro kus
  induction kus generalizing ht with
  | nil =>
    intro _ g
    show ht.stateOf g = _
    cases ht.stateOf g <;> rfl
  | cons p kus ih =>
    intro hpres g
    obtain ⟨k1, u1⟩ := p
    have hk1 : k1 ∈ ht.groups := hpres (k1, u1) (List.mem_cons_self _ _)
    obtain ⟨r1, hr1⟩ := exists_findGroupIdx_of_mem hnd hk1
    have haddr : findGroupIdx ht.rows k1 = some ((findGroupIdx ht.rows k1).getD 0) := by
      rw [hr1]
      rfl
    have hgrpreserve :
        (modifyAt (fun r => ⟨r.group, r.rowHash, u1 r.state⟩) ht.rows
          ((findGroupIdx ht.rows k1).getD 0)).map Row.group = ht.rows.map Row.group :=
      modifyAt_map_group u1 ht.rows _
    have hstep : applyUpdates ht
        (((k1, u1) :: kus).map (fun p => ((findGroupIdx ht.rows p.1).getD 0, p.2)))
        = applyUpdates
          (⟨ht.capacity, ht.slots, modifyAt (fun r => ⟨r.group, r.rowHash, u1 r.state⟩)
              ht.rows ((findGroupIdx ht.rows k1).getD 0)⟩ : HT K S)
          (kus.map (fun p => ((findGroupIdx ht.rows p.1).getD 0, p.2))) := rfl
    set ht1 : HT K S := ⟨ht.capacity, ht.slots,
      modifyAt (fun r => ⟨r.group, r.rowHash, u1 r.state⟩) ht.rows
        ((findGroupIdx ht.rows k1).getD 0)⟩ with hht1
    have hmapeq : kus.map (fun p => ((findGroupIdx ht.rows p.1).getD 0, p.2))
        = kus.map (fun p => ((findGroupIdx ht1.rows p.1).getD 0, p.2)) :=
      List.map_congr_left (fun p _ => by
        rw [findGroupIdx_congr hgrpreserve p.1])
    have hnd1 : (ht1.rows.map Row.group).Nodup := by
      rw [show ht1.rows = modifyAt (fun r => ⟨r.group, r.rowHash, u1 r.state⟩) ht.rows
        ((findGroupIdx ht.rows k1).getD 0) from rfl, hgrpreserve]
      exact hnd
    have hpres1 : ∀ p ∈ kus, p.1 ∈ ht1.groups := by
      intro p hp
      show p.1 ∈ ht1.rows.map Row.group
      rw [show ht1.rows = modifyAt (fun r => ⟨r.group, r.rowHash, u1 r.state⟩) ht.rows
        ((findGroupIdx ht.rows k1).getD 0) from rfl, hgrpreserve]
      exact hpres p (List.mem_cons_of_mem _ hp)
    have hstate1 : ∀ g', ht1.stateOf g'
        = if g' = k1 then (ht.stateOf g').map u1 else ht.stateOf g' :=
      fun g' => stateOf_modifyAt hnd haddr u1 g'
    rw [hstep, hmapeq, ih hnd1 hpres1 g, hstate1 g]
    by_cases hgk : g = k1
    · rw [if_pos hgk]
      have hfm : ((k1, u1) :: kus).filterMap (fun p => if p.1 = g then some p.2 else none)
          = u1 :: kus.filterMap (fun p => if p.1 = g then some p.2 else none) := by
        simp [List.filterMap_cons, hgk]
      rw [hfm]
      cases ht.stateOf g with
      | none => rfl
      | some s => rfl
    · rw [if_neg hgk]
      have hfm : ((k1, u1) :: kus).filterMap (fun p => if p.1 = g then some p.2 else none)
          = kus.filterMap (fun p => if p.1 = g then some p.2 else none) := by
        simp [List.filterMap_cons, Ne.symm hgk]
      rw [hfm]

end StateFold

/-! ## AddChunk characterization -/

section AddChunkSpec

variable [DecidableEq K] {f : K → Nat}

theorem stateOf_some_of_mem {ht : HT K S} {g : K} (hg : g ∈ ht.groups) :
    ∃ row, ht.rows.find? (fun r => decide (r.group = g)) = some row ∧
      ht.stateOf g = some row.state := by
  obtain ⟨row, hrow⟩ := Option.isSome_iff_exists.1 (List.find?_isSome.2 (by
    obtain ⟨row, hmem, hgr⟩ := List.mem_map.1 hg
    exact ⟨row, hmem, decide_eq_true hgr⟩))
  refine ⟨row, hrow, ?_⟩
  unfold HT.stateOf
  rw [hrow]
  rfl

theorem stateOf_none_of_not_mem {ht : HT K S} {g : K} (hg : g ∉ ht.groups) :
    ht.stateOf g = none := by
  unfold HT.stateOf
  rw [List.find?_eq_none.2 (fun x hx hpx =>
    hg (by rw [← of_decide_eq_true hpx]; exact List.mem_map_of_mem Row.group hx))]
  rfl

theorem stateOf_append_init {ht ht2 : HT K S} (init : S) (newKs : List K)
    (hrows2 : ht2.rows = ht.rows ++ newKs.map (fun k => ⟨k, f k, init⟩)) (g : K) :
    ht2.stateOf g = if g ∈ ht.groups then ht.stateOf g
      else if g ∈ newKs then some init else none := by
  show (ht2.rows.find? (fun r => decide (r.group = g))).map Row.state = _
  rw [hrows2, List.find?_append]
  by_cases hg1 : g ∈ ht.groups
  · obtain ⟨row, hfind, hstate⟩ := stateOf_some_of_mem hg1
    rw [if_pos hg1, hfind, hstate]
    rfl
  · have hnone : ht.rows.find? (fun r => decide (r.group = g)) = none :=
      List.find?_eq_none.2 (fun x hx hpx =>
        hg1 (by rw [← of_decide_eq_true hpx]; exact List.mem_map_of_mem Row.group hx))
    rw [if_neg hg1, hnone, Option.none_or]
    by_cases hg2 : g ∈ newKs
    · have hsome : ((newKs.map (fun k => (⟨k, f k, init⟩ : Row K S))).find?
          (fun r => decide (r.group = g))).isSome = true := by
        rw [List.find?_isSome]
        refine ⟨⟨g, f g, init⟩, List.mem_map_of_mem _ hg2, ?_⟩
        simp
      obtain ⟨row, hrow⟩ := Option.isSome_iff_exists.1 hsome
      obtain ⟨k', _, hk'⟩ := List.mem_map.1 (List.mem_of_find?_eq_some hrow)
      rw [if_pos hg2, hrow]
      rw [← hk']
      rfl
    · rw [if_neg hg2, List.find?_eq_none.2 (fun x hx hpx => ?_)]
      · rfl
      · obtain ⟨k', hk'mem, hk'⟩ := List.mem_map.1 hx
        rw [← hk'] at hpx
        exact hg2 (of_decide_eq_true hpx ▸ hk'mem)

theorem foldl_apply_map_update (upd : S → I → S) :
    ∀ (vs : List I) (s : S),
    (vs.map (fun v => (fun s => upd s v))).foldl (fun s u => u s) s = vs.foldl upd s := by
  intro vs
  induction vs with
  | nil => intro s; rfl
  | cons v vs ih => intro s; exact ih (upd s v)

theorem filterMap_update_form (upd : S → I → S) (batch : List (K × I)) (g : K) :
    batch.filterMap (fun p => if p.1 = g then some (fun s => upd s p.2) else none)
      = (batch.filterMap (fun p => if p.1 = g then some p.2 else none)).map
          (fun v => (fun s => upd s v)) := by
  rw [List.map_filterMap]
  refine List.filterMap_congr (fun p _ => ?_)
  by_cases hc : p.1 = g <;> simp [hc]

theorem AddChunk_spec {ht : HT K S} (hwf : WF f ht) (agg : AggregateFunction I S)
    (batch : List (K × I)) (hroom : ht.rows.length + batch.length ≤ ht.capacity) :
    ∃ ht', AddChunk f agg ht batch = some ht' ∧ WF f ht' ∧ ht'.capacity = ht.capacity ∧
      ht'.groups = ht.groups ++ newGroupsList ht.groups (batch.map Prod.fst) ∧
      ∀ g : K, ht'.stateOf g =
        if g ∈ batch.map Prod.fst
        then some ((batch.filterMap (fun p => if p.1 = g then some p.2 else none)).foldl
              agg.update ((ht.stateOf g).getD agg.init))
        else ht.stateOf g := by
  obtain ⟨ht1, addrs, newSel, hloop, hwf1, hcap1, hrows1, haddrs1, hsel1⟩ :=
    findOrCreateLoopNoHashes_spec hwf agg.init (batch.map Prod.fst) 0
      (by rw [List.length_map]; exact hroom)
  have hgroups1 : ht1.groups = ht.groups ++ newGroupsList ht.groups (batch.map Prod.fst) := by
    show ht1.rows.map Row.group = _
    rw [hrows1, List.map_append, List.map_map]
    rw [show (Row.group ∘ fun k => (⟨k, f k, agg.init⟩ : Row K S)) = fun k => k from rfl,
      List.map_id']
    rfl
  have hAdd : AddChunk f agg ht batch = some (applyUpdates ht1
      (addrs.zip (batch.map (fun kv s => agg.update s kv.2)))) := by
    unfold AddChunk FindOrCreateGroupsNoHashes
    rw [hloop]
  have hops : addrs.zip (batch.map (fun kv s => agg.update s kv.2))
      = (batch.map (fun p => (p.1, fun s => agg.update s p.2))).map
          (fun q => ((findGroupIdx ht1.rows q.1).getD 0, q.2)) := by
    rw [haddrs1, List.map_map, List.zip_map', List.map_map]
    exact List.map_congr_left (fun p _ => rfl)
  have hpres : ∀ q ∈ batch.map (fun p => (p.1, fun s => agg.update s p.2)), q.1 ∈ ht1.groups := by
    intro q hq
    obtain ⟨p, hpmem, hpq⟩ := List.mem_map.1 hq
    have hq1 : q.1 = p.1 := by rw [← hpq]
    rw [hq1, hgroups1]
    by_cases hpg : p.1 ∈ ht.groups
    · exact List.mem_append_left _ hpg
    · exact List.mem_append_right _
        (mem_newGroupsList _ _ _ (List.mem_map_of_mem Prod.fst hpmem) hpg)
  have hstates1 : ∀ g : K, ht1.stateOf g = if g ∈ ht.groups then ht.stateOf g
      else if g ∈ newGroupsList ht.groups (batch.map Prod.fst) then some agg.init else none :=
    fun g => stateOf_append_init agg.init _ hrows1 g
  refine ⟨_, hAdd, WF_applyUpdates hwf1 _, ?_, ?_, ?_⟩
  · rw [(applyUpdates_slots _ _).2, hcap1]
  · show (applyUpdates ht1 _).rows.map Row.group = _
    rw [applyUpdates_map_group]
    exact hgroups1
  · intro g
    rw [hops, applyUpdates_stateOf hwf1.groupsNodup _ hpres g, hstates1 g]
    rw [List.filterMap_map]
    have hfmc : ((fun p => if p.1 = g then some p.2 else none) ∘
        (fun (p : K × I) => (p.1, fun s => agg.update s p.2)))
        = fun p => if p.1 = g then some (fun s => agg.update s p.2) else none := by
      funext p
      by_cases hc : p.1 = g <;> simp [hc]
    rw [hfmc, filterMap_update_form]
    by_cases hgb : g ∈ batch.map Prod.fst
    · rw [if_pos hgb]
      by_cases hg1 : g ∈ ht.groups
      · rw [if_pos hg1]
        obtain ⟨row, _, hstate⟩ := stateOf_some_of_mem hg1
        rw [hstate, Option.map_some', Option.getD_some, foldl_apply_map_update]
      · rw [if_neg hg1, if_pos (mem_newGroupsList _ _ _ hgb hg1),
          stateOf_none_of_not_mem hg1, Option.map_some', foldl_apply_map_update]
        rfl
    · rw [if_neg hgb]
      have hfm : batch.filterMap (fun p => if p.1 = g then some p.2 else none) = [] :=
        List.filterMap_eq_nil.2 (fun p hp => if_neg (fun he =>
          hgb (by rw [← he]; exact List.mem_map_of_mem Prod.fst hp)))
      rw [hfm]
      by_cases hg1 : g ∈ ht.groups
      · rw [if_pos hg1]
        obtain ⟨row, _, hstate⟩ := stateOf_some_of_mem hg1
        rw [hstate]
        rfl
      · rw [if_neg hg1, if_neg (fun hmem => hgb (newGroupsList_subset _ _ g hmem).1),
          stateOf_none_of_not_mem hg1]
        rfl

end AddChunkSpec

/-! ## Combine characterization -/

section CombineSpec

variable [DecidableEq K] {f : K → Nat}

theorem filterMap_singleton_of_nodup {T : Type} :
    ∀ {rows : List (Row K S)}, (rows.map Row.group).Nodup →
    ∀ {g : K} {row : Row K S},
    rows.find? (fun r => decide (r.group = g)) = some row → ∀ (F : Row K S → T),
    rows.filterMap (fun r => if r.group = g then some (F r) else none) = [F row] := by
  intro rows
  induction rows with
  | nil => intro _ g row h; exact absurd h (by simp)
  | cons r rs ih =>
    intro hnd g row hfind F
    rw [List.map_cons, List.nodup_cons] at hnd
    by_cases hg : r.group = g
    · have hfr : List.find? (fun x => decide (x.group = g)) (r :: rs) = some r :=
        List.find?_cons_of_pos _ (by simp [hg])
      rw [hfr] at hfind
      injection hfind with hfind
      subst hfind
      have hstep : (r :: rs).filterMap (fun x => if x.group = g then some (F x) else none)
          = F r :: rs.filterMap (fun x => if x.group = g then some (F x) else none) := by
        simp [List.filterMap_cons, hg]
      have hnil : rs.filterMap (fun x => if x.group = g then some (F x) else none) = [] :=
        List.filterMap_eq_nil.2 (fun x hx => if_neg (fun hxg =>
          hnd.1 (by rw [hg, ← hxg]; exact List.mem_map_of_mem Row.group hx)))
      rw [hstep, hnil]
    · have hfr : List.find? (fun x => decide (x.group = g)) (r :: rs)
          = List.find? (fun x => decide (x.group = g)) rs :=
        List.find?_cons_of_neg _ (by simp [hg])
      rw [hfr] at hfind
      have hstep : (r :: rs).filterMap (fun x => if x.group = g then some (F x) else none)
          = rs.filterMap (fun x => if x.group = g then some (F x) else none) := by
        simp [List.filterMap_cons, hg]
      rw [hstep]
      exact ih hnd.2 hfind F

theorem Combine_spec {a b : HT K S} (hwfa : WF f a) (hwfb : WF f b)
    (agg : AggregateFunction I S)
    (hroom : a.rows.length + b.rows.length ≤ a.capacity) :
    ∃ c, Combine agg a b = some c ∧ WF f c ∧ c.capacity = a.capacity ∧
      c.groups = a.groups ++ newGroupsList a.groups b.groups ∧
      ∀ g : K, c.stateOf g =
        match b.stateOf g with
        | some sb => some (agg.combine ((a.stateOf g).getD agg.init) sb)
        | none => a.stateOf g := by
  obtain ⟨a1, addrs, newSel, hloop, hwf1, hcap1, hrows1, haddrs1, hsel1⟩ :=
    findOrCreateLoopNoHashes_spec hwfa agg.init (b.rows.map Row.group) 0
      (by rw [List.length_map]; exact hroom)
  have hhash : b.rows.map Row.rowHash = (b.rows.map Row.group).map f := by
    rw [List.map_map]
    exact List.map_congr_left (fun r hr => hwfb.rowHashes r hr)
  have hgroups1 : a1.groups = a.groups ++ newGroupsList a.groups b.groups := by
    show a1.rows.map Row.group = _
    rw [hrows1, List.map_append, List.map_map]
    rw [show (Row.group ∘ fun k => (⟨k, f k, agg.init⟩ : Row K S)) = fun k => k from rfl,
      List.map_id']
    rfl
  have hCombine : Combine agg a b = some (applyUpdates a1
      (addrs.zip (b.rows.map (fun br s => agg.combine s br.state)))) := by
    unfold Combine FlushMerge FindOrCreateGroups
    rw [hhash, findOrCreateLoop_zip_eq agg.init (b.rows.map Row.group) a 0, hloop]
  have hops : addrs.zip (b.rows.map (fun br s => agg.combine s br.state))
      = (b.rows.map (fun br => (br.group, fun s => agg.combine s br.state))).map
          (fun q => ((findGroupIdx a1.rows q.1).getD 0, q.2)) := by
    rw [haddrs1, List.map_map, List.zip_map', List.map_map]
    exact List.map_congr_left (fun p _ => rfl)
  have hpres : ∀ q ∈ b.rows.map (fun br => (br.group, fun s => agg.combine s br.state)),
      q.1 ∈ a1.groups := by
    intro q hq
    obtain ⟨br, hbrmem, hbrq⟩ := List.mem_map.1 hq
    have hq1 : q.1 = br.group := by rw [← hbrq]
    rw [hq1, hgroups1]
    by_cases hpg : br.group ∈ a.groups
    · exact List.mem_append_left _ hpg
    · exact List.mem_append_right _
        (mem_newGroupsList _ _ _ (List.mem_map_of_mem Row.group hbrmem) hpg)
  have hstates1 : ∀ g : K, a1.stateOf g = if g ∈ a.groups then a.stateOf g
      else if g ∈ newGroupsList a.groups b.groups then some agg.init else none :=
    fun g => stateOf_append_init agg.init _ hrows1 g
  refine ⟨_, hCombine, WF_applyUpdates hwf1 _, ?_, ?_, ?_⟩
  · rw [(applyUpdates_slots _ _).2, hcap1]
  · show (applyUpdates a1 _).rows.map Row.group = _
    rw [applyUpdates_map_group]
    exact hgroups1
  · intro g
    rw [hops, applyUpdates_stateOf hwf1.groupsNodup _ hpres g, hstates1 g]
    rw [List.filterMap_map]
    have hfmc : ((fun p => if p.1 = g then some p.2 else none) ∘
        (fun (br : Row K S) => (br.group, fun s => agg.combine s br.state)))
        = fun br => if br.group = g then some (fun s => agg.combine s br.state) else none := by
      funext br
      by_cases hc : br.group = g <;> simp [hc]
    rw [hfmc]
    by_cases hgb : g ∈ b.groups
    · obtain ⟨brow, hfind, hstateb⟩ := stateOf_some_of_mem hgb
      rw [filterMap_singleton_of_nodup hwfb.groupsNodup hfind
        (fun br => (fun s => agg.combine s br.state)), hstateb]
      by_cases hg1 : g ∈ a.groups
      · rw [if_pos hg1]
        obtain ⟨arow, _, hstatea⟩ := stateOf_some_of_mem hg1
        rw [hstatea]
        rfl
      · rw [if_neg hg1, if_pos (mem_newGroupsList _ _ _ hgb hg1),
          stateOf_none_of_not_mem hg1]
        rfl
    · rw [stateOf_none_of_not_mem hgb]
      have hfm : b.rows.filterMap
          (fun br => if br.group = g then some (fun s => agg.combine s br.state) else none)
          = [] :=
        List.filterMap_eq_nil.2 (fun br hbr => if_neg (fun he =>
          hgb (by rw [← he]; exact List.mem_map_of_mem Row.group hbr)))
      rw [hfm]
      by_cases hg1 : g ∈ a.groups
      · rw [if_pos hg1]
        obtain ⟨arow, _, hstatea⟩ := stateOf_some_of_mem hg1
        rw [hstatea]
        rfl
      · rw [if_neg hg1, if_neg (fun hmem => hgb (newGroupsList_subset _ _ g hmem).1),
          stateOf_none_of_not_mem hg1]
        rfl

end CombineSpec

/-! ## Scan lemmas -/

section ScanSpec

variable {f : K → Nat}

theorem scanLoop_spec (ht : HT K S) :
    ∀ (fuel pos limit : Nat),
    (scanLoop ht fuel pos limit).1 = (liveFrom ht fuel pos).take limit ∧
    ∃ c ≤ fuel, (scanLoop ht fuel pos limit).2 = pos + c ∧
      liveFrom ht (fuel - c) (pos + c) = (liveFrom ht fuel pos).drop limit := by
  intro fuel
  induction fuel with
  | zero =>
    intro pos limit
    exact ⟨by simp [scanLoop, liveFrom], 0, Nat.le_refl 0, rfl,
      by simp [liveFrom]⟩
  | succ fu ih =>
    intro pos limit
    by_cases hl : limit = 0
    · subst hl
      refine ⟨by simp [scanLoop], 0, Nat.zero_le _, rfl, by simp⟩
    · cases hs : ht.slotAt pos with
      | none =>
        have hscan : scanLoop ht (fu + 1) pos limit = scanLoop ht fu (pos + 1) limit := by
          simp only [scanLoop, hs, if_neg hl]
        have hlive : liveFrom ht (fu + 1) pos = liveFrom ht fu (pos + 1) := by
          simp only [liveFrom, hs]
        obtain ⟨h1, c, hc, h2, h3⟩ := ih (pos + 1) limit
        refine ⟨by rw [hscan, hlive, h1], c + 1, by omega, ?_, ?_⟩
        · rw [hscan, h2]
          omega
        · rw [hlive, show pos + (c + 1) = pos + 1 + c from by omega,
            show fu + 1 - (c + 1) = fu - c from by omega]
          exact h3
      | some s =>
        obtain ⟨m, rfl⟩ : ∃ m, limit = m + 1 := ⟨limit - 1, by omega⟩
        have hscan : scanLoop ht (fu + 1) pos (m + 1)
            = ((s.2 :: (scanLoop ht fu (pos + 1) m).1), (scanLoop ht fu (pos + 1) m).2) := by
          simp only [scanLoop, hs, if_neg hl, Nat.add_sub_cancel]
        have hlive : liveFrom ht (fu + 1) pos = s.2 :: liveFrom ht fu (pos + 1) := by
          simp only [liveFrom, hs]
        obtain ⟨h1, c, hc, h2, h3⟩ := ih (pos + 1) m
        refine ⟨?_, c + 1, by omega, ?_, ?_⟩
        · rw [hscan, hlive]
          show s.2 :: (scanLoop ht fu (pos + 1) m).1 = s.2 :: (liveFrom ht fu (pos + 1)).take m
          rw [h1]
        · rw [hscan]
          show (scanLoop ht fu (pos + 1) m).2 = pos + (c + 1)
          rw [h2]
          omega
        · rw [hlive, show pos + (c + 1) = pos + 1 + c from by omega,
            show fu + 1 - (c + 1) = fu - c from by omega]
          exact h3

theorem scanChain_take (ht : HT K S) :
    ∀ (limits : List Nat) (pos : Nat), pos ≤ ht.capacity →
    scanChain ht pos limits = (liveFrom ht (ht.capacity - pos) pos).take limits.sum := by
  intro limits
  induction limits with
  | nil => intro pos _; simp [scanChain]
  | cons l ls ih =>
    intro pos hpos
    obtain ⟨h1, c, hc, h2, h3⟩ := scanLoop_spec ht (ht.capacity - pos) pos l
    have hchain : scanChain ht pos (l :: ls)
        = (Scan ht pos l).1 ++ scanChain ht (Scan ht pos l).2 ls := rfl
    have hscan1 : (Scan ht pos l).1 = (liveFrom ht (ht.capacity - pos) pos).take l := h1
    have hscan2 : (Scan ht pos l).2 = pos + c := h2
    have hpos' : pos + c ≤ ht.capacity := by omega
    have hsub : ht.capacity - (pos + c) = ht.capacity - pos - c := by omega
    rw [hchain, hscan1, hscan2, ih (pos + c) hpos', hsub, h3, List.sum_cons, List.take_add]

theorem slotAt_of_get? {ht : HT K S} {i : Nat} {o : Option (Nat × Nat)}
    (h : ht.slots.get? i = some o) : ht.slotAt i = o := by
  unfold HT.slotAt List.getD
  rw [h]
  rfl

theorem liveFrom_eq (ht : HT K S) : ∀ (fuel pos : Nat),
    liveFrom ht fuel pos = ((ht.slots.drop pos).take fuel).filterMap (fun o => o.map Prod.snd) := by
  intro fuel
  induction fuel with
  | zero => intro pos; simp [liveFrom]
  | succ fu ih =>
    intro pos
    by_cases hpos : pos < ht.slots.length
    · have hdrop : ht.slots.drop pos = ht.slotAt pos :: ht.slots.drop (pos + 1) := by
        rw [List.drop_eq_get_cons hpos]
        congr 1
        have hg : ht.slots.get? pos = some (ht.slots.get ⟨pos, hpos⟩) := List.get?_eq_get hpos
        rw [slotAt_of_get? hg]
      rw [hdrop]
      cases hs : ht.slotAt pos with
      | none =>
        simp only [liveFrom, hs, ih (pos + 1), List.take_succ_cons, List.filterMap_cons]
        rfl
      | some s =>
        simp only [liveFrom, hs, ih (pos + 1), List.take_succ_cons, List.filterMap_cons]
        rfl
    · have hdrop : ht.slots.drop pos = [] := List.drop_eq_nil_of_le (by omega)
      have hdrop1 : ht.slots.drop (pos + 1) = [] := List.drop_eq_nil_of_le (by omega)
      have hs : ht.slotAt pos = none := slotAt_none_of_ge (by omega)
      simp only [liveFrom, hs, ih (pos + 1), hdrop, hdrop1]
      simp

theorem filterMap_snd_nodup :
    ∀ (l : List (Option (Nat × Nat))),
    (∀ i j si sj, l.get? i = some (some si) → l.get? j = some (some sj) → si.2 = sj.2 → i = j) →
    (l.filterMap (fun o => o.map Prod.snd)).Nodup := by
  intro l
  induction l with
  | nil => intro _; exact List.nodup_nil
  | cons o l ih =>
    intro hinj
    cases o with
    | none =>
      have hstep : ((none :: l).filterMap (fun o => o.map Prod.snd))
          = l.filterMap (fun o => o.map Prod.snd) := by
        simp [List.filterMap_cons]
      rw [hstep]
      refine ih (fun i j si sj hi hj hij => ?_)
      have := hinj (i + 1) (j + 1) si sj (by simpa using hi) (by simpa using hj) hij
      omega
    | some s =>
      have hstep : ((some s :: l).filterMap (fun o => o.map Prod.snd))
          = s.2 :: l.filterMap (fun o => o.map Prod.snd) := by
        simp [List.filterMap_cons]
      rw [hstep, List.nodup_cons]
      constructor
      · intro hmem
        obtain ⟨o', ho'mem, ho'⟩ := List.mem_filterMap.1 hmem
        obtain ⟨t, rfl⟩ : ∃ t, o' = some t := by
          cases o' with
          | none => exact Option.noConfusion ho'
          | some t => exact ⟨t, rfl⟩
        obtain ⟨j, hj⟩ := List.mem_iff_get?.1 ho'mem
        have ht2 : t.2 = s.2 := by
          rw [Option.map_some'] at ho'
          injection ho'
        have := hinj (j + 1) 0 t s (by simpa using hj) rfl ht2
        omega
      · refine ih (fun i j si sj hi hj hij => ?_)
        have := hinj (i + 1) (j + 1) si sj (by simpa using hi) (by simpa using hj) hij
        omega

theorem liveFrom_full_perm {ht : HT K S} (hwf : WF f ht) :
    (liveFrom ht ht.capacity 0).Perm (List.range ht.rows.length) := by
  have hlive : liveFrom ht ht.capacity 0 = ht.slots.filterMap (fun o => o.map Prod.snd) := by
    rw [liveFrom_eq, List.drop_zero, List.take_of_length_le (by rw [hwf.slotsLen])]
  rw [hlive]
  refine List.perm_of_nodup_nodup_toFinset_eq ?_ (List.nodup_range _) ?_
  · refine filterMap_snd_nodup ht.slots (fun i j si sj hi hj hij => ?_)
    exact hwf.slotInj i j si sj (slotAt_of_get? hi) (slotAt_of_get? hj) hij
  · refine Finset.ext (fun x => ?_)
    rw [List.mem_toFinset, List.mem_toFinset, List.mem_range, List.mem_filterMap]
    constructor
    · rintro ⟨o, homem, ho⟩
      obtain ⟨t, rfl⟩ : ∃ t, o = some t := by
        cases o with
        | none => exact Option.noConfusion ho
        | some t => exact ⟨t, rfl⟩
      obtain ⟨i, hi⟩ := List.mem_iff_get?.1 homem
      obtain ⟨row, hrow, _⟩ := hwf.slotSound i t (slotAt_of_get? hi)
      have hx : t.2 = x := by
        rw [Option.map_some'] at ho
        injection ho
      rw [← hx]
      exact (List.get?_eq_some.1 hrow).1
    · intro hx
      obtain ⟨i, s, hi, hs2⟩ := hwf.rowPlaced x hx
      refine ⟨some s, ?_, by rw [Option.map_some', hs2]⟩
      have hilen : i < ht.slots.length := lt_of_slotAt_some hi
      have hg := slotAt_eq_get? hilen
      rw [hi] at hg
      exact get?_mem hg

end ScanSpec

/-! ## Empty table, capacity bound, Resize -/

section ResizeSpec

variable [DecidableEq K] {f : K → Nat}

theorem emptyHT_slotAt (cap : Nat) (i : Nat) : (emptyHT K S cap).slotAt i = none := by
  show (List.replicate cap (none : Option (Nat × Nat))).getD i none = none
  unfold List.getD
  rcases h : (List.replicate cap (none : Option (Nat × Nat))).get? i with _ | o
  · rfl
  · have := List.eq_of_mem_replicate (get?_mem h)
    rw [this]
    rfl

theorem WF_empty (cap : Nat) (hcap : 0 < cap) : WF f (emptyHT K S cap) := by
  constructor
  · exact hcap
  · exact List.length_replicate cap none
  · intro r hr
    exact absurd hr (List.not_mem_nil r)
  · exact List.nodup_nil
  · intro i s hsi
    rw [emptyHT_slotAt] at hsi
    exact Option.noConfusion hsi
  · intro i j s t hsi
    rw [emptyHT_slotAt] at hsi
    exact Option.noConfusion hsi
  · intro rIdx hrIdx
    exact absurd hrIdx (Nat.not_lt_zero rIdx)
  · intro i s row hsi
    rw [emptyHT_slotAt] at hsi
    exact Option.noConfusion hsi

theorem entries_le_capacity {ht : HT K S} (hwf : WF f ht) :
    ht.rows.length ≤ ht.capacity := by
  have hperm := liveFrom_full_perm hwf
  have hlen : (liveFrom ht ht.capacity 0).length = ht.rows.length := by
    rw [hperm.length_eq, List.length_range]
  have hle : (liveFrom ht ht.capacity 0).length ≤ ht.slots.length := by
    rw [liveFrom_eq, List.drop_zero]
    calc ((ht.slots.take ht.capacity).filterMap (fun o => o.map Prod.snd)).length
        ≤ (ht.slots.take ht.capacity).length := List.length_filterMap_le _ _
      _ ≤ ht.slots.length := by rw [List.length_take]; omega
  rw [hlen, hwf.slotsLen] at hle
  exact hle

theorem probeEmptyLoop_skip {ht : HT K S} (hc : 0 < ht.capacity) :
    ∀ (d fuel pos : Nat), pos < ht.capacity → d ≤ fuel →
    (∀ e < d, ht.slotAt ((pos + e) % ht.capacity) ≠ none) →
    probeEmptyLoop ht fuel pos = probeEmptyLoop ht (fuel - d) ((pos + d) % ht.capacity) := by
  intro d
  induction d with
  | zero =>
    intro fuel pos hpos _ _
    rw [Nat.add_zero, Nat.mod_eq_of_lt hpos, Nat.sub_zero]
  | succ d ih =>
    intro fuel pos hpos hd hocc
    have h0 := hocc 0 (Nat.succ_pos d)
    rw [Nat.add_zero, Nat.mod_eq_of_lt hpos] at h0
    obtain ⟨s, hs⟩ : ∃ s, ht.slotAt pos = some s := by
      rcases hq : ht.slotAt pos with _ | s
      · exact absurd hq h0
      · exact ⟨s, rfl⟩
    rcases fuel with _ | fu
    · exact absurd hd (by omega)
    have hstep : probeEmptyLoop ht (fu + 1) pos = probeEmptyLoop ht fu ((pos + 1) % ht.capacity) := by
      simp only [probeEmptyLoop, hs]
    rw [hstep, ih fu ((pos + 1) % ht.capacity) (Nat.mod_lt _ hc) (by omega) ?_]
    · rw [mod_shift]
      congr 1
      omega
    · intro e he
      have := hocc (e + 1) (by omega)
      rw [mod_shift]
      exact this

theorem probeEmptyLoop_first {ht : HT K S} (hwf : WF f ht)
    (hroom : ht.entries < ht.capacity) (pos : Nat) (hpos : pos < ht.capacity) :
    ∃ j, probeEmptyLoop ht ht.capacity pos = some j ∧ ht.slotAt j = none ∧
      j < ht.capacity ∧
      ∀ e < distWrap ht.capacity pos j, ht.slotAt ((pos + e) % ht.capacity) ≠ none := by
  obtain ⟨i0, hi0cap, hi0⟩ := exists_empty_slot hwf hroom
  have hex : ∃ e, ht.slotAt ((pos + e) % ht.capacity) = none := by
    refine ⟨distWrap ht.capacity pos i0, ?_⟩
    rw [add_distWrap hpos hi0cap]
    exact hi0
  classical
  have hdspec : ht.slotAt ((pos + Nat.find hex) % ht.capacity) = none := Nat.find_spec hex
  have hdmin : ∀ e < Nat.find hex, ht.slotAt ((pos + e) % ht.capacity) ≠ none :=
    fun e he => Nat.find_min hex he
  have hdcap : Nat.find hex < ht.capacity := by
    have hle : Nat.find hex ≤ distWrap ht.capacity pos i0 := by
      apply Nat.find_min'
      rw [add_distWrap hpos hi0cap]
      exact hi0
    exact Nat.lt_of_le_of_lt hle (distWrap_lt hwf.capPos)
  refine ⟨(pos + Nat.find hex) % ht.capacity, ?_, hdspec, Nat.mod_lt _ hwf.capPos, ?_⟩
  · rw [probeEmptyLoop_skip hwf.capPos (Nat.find hex) ht.capacity pos hpos
      (le_of_lt hdcap) hdmin]
    obtain ⟨m, hm⟩ : ∃ m, ht.capacity - Nat.find hex = m + 1 :=
      ⟨ht.capacity - Nat.find hex - 1, by omega⟩
    rw [hm]
    simp only [probeEmptyLoop, hdspec]
  · intro e he
    rw [distWrap_of_add hwf.capPos hpos hdcap] at he
    exact hdmin e he

theorem WF_insertRow {ht : HT K S} (hwf : WF f ht) (row : Row K S)
    (hk : row.group ∉ ht.groups) (hh : row.rowHash = f row.group) {j : Nat}
    (hj : ht.slotAt j = none) (hjcap : j < ht.capacity)
    (hpathj : ∀ e < distWrap ht.capacity (ht.homeOf row.rowHash) j,
        ht.slotAt ((ht.homeOf row.rowHash + e) % ht.capacity) ≠ none) :
    WF f ⟨ht.capacity, ht.slots.set j (some (hashPrefixOf row.rowHash, ht.rows.length)),
          ht.rows ++ [row]⟩ := by
  have hjlen : j < ht.slots.length := by rw [hwf.slotsLen]; exact hjcap
  set ht' : HT K S :=
    ⟨ht.capacity, ht.slots.set j (some (hashPrefixOf row.rowHash, ht.rows.length)),
     ht.rows ++ [row]⟩ with hht'
  have hslot_self : ht'.slotAt j = some (hashPrefixOf row.rowHash, ht.rows.length) := by
    show (ht.slots.set j (some (hashPrefixOf row.rowHash, ht.rows.length))).getD j none = _
    exact getD_set_self hjlen _ _
  have hslot_ne : ∀ i, j ≠ i → ht'.slotAt i = ht.slotAt i := by
    intro i hne
    show (ht.slots.set j (some (hashPrefixOf row.rowHash, ht.rows.length))).getD i none = _
    exact getD_set_ne hne _ _
  have hget_old : ∀ (r : Nat), ∀ rw0, ht.rows.get? r = some rw0 →
      ht'.rows.get? r = some rw0 := by
    intro r rw0 hrow
    show (ht.rows ++ [row]).get? r = some rw0
    rw [List.get?_append (List.get?_eq_some.1 hrow).1]
    exact hrow
  have hget_new : ht'.rows.get? ht.rows.length = some row :=
    List.get?_concat_length ht.rows row
  have hfill : ∀ q, ht.slotAt q ≠ none → ht'.slotAt q ≠ none := by
    intro q hq
    by_cases hqj : j = q
    · subst hqj
      rw [hslot_self]
      exact Option.noConfusion
    · rw [hslot_ne q hqj]
      exact hq
  constructor
  · exact hwf.capPos
  · show (ht.slots.set j _).length = ht.capacity
    rw [List.length_set]
    exact hwf.slotsLen
  · intro r hr
    rcases List.mem_append.1 hr with h1 | h1
    · exact hwf.rowHashes r h1
    · rw [List.mem_singleton.1 h1]
      exact hh
  · show (List.map Row.group (ht.rows ++ [row])).Nodup
    rw [List.map_append, List.nodup_append]
    refine ⟨hwf.groupsNodup, List.nodup_singleton row.group, ?_⟩
    intro a ha hb
    rw [List.map_singleton, List.mem_singleton] at hb
    subst hb
    exact hk ha
  · intro i s hsi
    by_cases hij : j = i
    · subst hij
      rw [hslot_self] at hsi
      cases hsi
      exact ⟨row, hget_new, rfl⟩
    · rw [hslot_ne i hij] at hsi
      obtain ⟨rw0, hrow, hp⟩ := hwf.slotSound i s hsi
      exact ⟨rw0, hget_old _ rw0 hrow, hp⟩
  · intro i i' s t hsi hsi' heq
    by_cases hij : j = i <;> by_cases hij' : j = i'
    · rw [← hij, ← hij']
    · subst hij
      rw [hslot_self] at hsi
      cases hsi
      rw [hslot_ne i' hij'] at hsi'
      obtain ⟨rw0, hrow, _⟩ := hwf.slotSound i' t hsi'
      have hlt := (List.get?_eq_some.1 hrow).1
      simp only [] at heq
      omega
    · subst hij'
      rw [hslot_self] at hsi'
      cases hsi'
      rw [hslot_ne i hij] at hsi
      obtain ⟨rw0, hrow, _⟩ := hwf.slotSound i s hsi
      have hlt := (List.get?_eq_some.1 hrow).1
      simp only [] at heq
      omega
    · rw [hslot_ne i hij] at hsi
      rw [hslot_ne i' hij'] at hsi'
      exact hwf.slotInj i i' s t hsi hsi' heq
  · intro r hr
    have hr' : r < ht.rows.length + 1 := by
      rw [hht'] at hr
      simpa using hr
    rcases Nat.lt_succ_iff_lt_or_eq.1 hr' with h1 | h1
    · obtain ⟨i, s, hi, hs2⟩ := hwf.rowPlaced r h1
      have hij : j ≠ i := by
        intro he
        rw [← he, hj] at hi
        exact Option.noConfusion hi
      exact ⟨i, s, by rw [hslot_ne i hij]; exact hi, hs2⟩
    · exact ⟨j, (hashPrefixOf row.rowHash, ht.rows.length), hslot_self, h1.symm⟩
  · intro i s rw0 hsi hrow d hd
    by_cases hij : j = i
    · subst hij
      rw [hslot_self] at hsi
      cases hsi
      rw [hget_new] at hrow
      cases hrow
      exact hfill _ (hpathj d hd)
    · rw [hslot_ne i hij] at hsi
      obtain ⟨row0, hrow0, _⟩ := hwf.slotSound i s hsi
      have hr0 : row0 = rw0 := by
        rw [hget_old _ row0 hrow0] at hrow
        injection hrow
      subst hr0
      exact hfill _ (hwf.chain i s row0 hsi hrow0 d hd)

theorem insertRelocate_spec {acc : HT K S} (hwf : WF f acc) (row : Row K S)
    (hk : row.group ∉ acc.groups) (hh : row.rowHash = f row.group)
    (hroom : acc.rows.length < acc.capacity) :
    ∃ acc1, insertRelocate acc row = some acc1 ∧ WF f acc1 ∧
      acc1.capacity = acc.capacity ∧ acc1.rows = acc.rows ++ [row] := by
  obtain ⟨j, hpe, hj, hjcap, hpath⟩ :=
    probeEmptyLoop_first hwf hroom (acc.homeOf row.rowHash) (homeOf_lt hwf.capPos)
  refine ⟨⟨acc.capacity, acc.slots.set j (some (hashPrefixOf row.rowHash, acc.rows.length)),
           acc.rows ++ [row]⟩, ?_, ?_, rfl, rfl⟩
  · unfold insertRelocate
    rw [hpe]
  · exact WF_insertRow hwf row hk hh hj hjcap hpath

theorem relocateAll_spec :
    ∀ (rows : List (Row K S)) (acc : HT K S), WF f acc →
    (∀ r ∈ rows, r.rowHash = f r.group) →
    (acc.rows.map Row.group ++ rows.map Row.group).Nodup →
    acc.rows.length + rows.length ≤ acc.capacity →
    ∃ acc', relocateAll acc rows = some acc' ∧ WF f acc' ∧
      acc'.capacity = acc.capacity ∧ acc'.rows = acc.rows ++ rows := by
  intro rows
  induction rows with
  | nil =>
    intro acc hwf _ _ _
    exact ⟨acc, rfl, hwf, rfl, by rw [List.append_nil]⟩
  | cons row rest ih =>
    intro acc hwf hhash hnd hroom
    have hk : row.group ∉ acc.groups := by
      intro hmem
      rw [List.map_cons, List.nodup_append] at hnd
      exact hnd.2.2 hmem (List.mem_cons_self _ _)
    obtain ⟨acc1, hins, hwf1, hcap1, hrows1⟩ :=
      insertRelocate_spec hwf row hk (hhash row (List.mem_cons_self _ _))
        (by rw [List.length_cons] at hroom; omega)
    obtain ⟨acc', hrel, hwf', hcap', hrows'⟩ := ih acc1 hwf1
      (fun r hr => hhash r (List.mem_cons_of_mem _ hr))
      (by
        rw [hrows1, List.map_append, List.map_singleton, ← List.append_cons]
        rw [List.map_cons] at hnd
        exact hnd)
      (by
        rw [hrows1, List.length_append, List.length_singleton, hcap1]
        rw [List.length_cons] at hroom
        omega)
    refine ⟨acc', ?_, hwf', by rw [hcap', hcap1], ?_⟩
    · show relocateAll acc (row :: rest) = some acc'
      unfold relocateAll
      rw [hins]
      exact hrel
    · rw [hrows', hrows1, List.append_assoc]
      rfl

theorem isPow2_iff (n : Nat) : isPow2 n = true ↔ ∃ k, n = 2 ^ k := by
  unfold isPow2
  rw [beq_iff_eq]
  constructor
  · intro h
    exact ⟨Nat.log2 n, h⟩
  · rintro ⟨k, rfl⟩
    rw [Nat.log2_eq_log_two, Nat.log_pow Nat.one_lt_two]

theorem Resize_spec {ht : HT K S} (hwf : WF f ht) (newCap : Nat) :
    (¬(ht.capacity < newCap ∧ ∃ k, newCap = 2 ^ k) → Resize ht newCap = none) ∧
    ((ht.capacity < newCap ∧ ∃ k, newCap = 2 ^ k) →
      ∃ ht', Resize ht newCap = some ht' ∧ WF f ht' ∧ ht'.capacity = newCap ∧
        ht'.rows = ht.rows) := by
  constructor
  · intro hno
    unfold Resize
    rw [if_neg]
    intro hcond
    rw [Bool.and_eq_true, decide_eq_true_eq, isPow2_iff] at hcond
    exact hno hcond
  · rintro ⟨hlt, k, hpow⟩
    have hcap0 : 0 < newCap := by rw [hpow]; exact Nat.pos_pow_of_pos k (by omega)
    obtain ⟨ht', hrel, hwf', hcap', hrows'⟩ :=
      relocateAll_spec ht.rows (emptyHT K S newCap) (WF_empty newCap hcap0)
        (fun r hr => hwf.rowHashes r hr)
        (by
          show (List.map Row.group [] ++ ht.rows.map Row.group).Nodup
          rw [List.map_nil, List.nil_append]
          exact hwf.groupsNodup)
        (by
          show List.length [] + ht.rows.length ≤ newCap
          rw [List.length_nil, Nat.zero_add]
          exact le_trans (entries_le_capacity hwf) (le_of_lt hlt))
    refine ⟨ht', ?_, hwf', hcap', by rw [hrows']; rfl⟩
    unfold Resize
    rw [if_pos]
    · exact hrel
    · rw [Bool.and_eq_true, decide_eq_true_eq, isPow2_iff]
      exact ⟨hlt, k, hpow⟩

end ResizeSpec

/-! ## Soundness of the executable WF check -/

section WFbSound

variable [DecidableEq K] {f : K → Nat}

theorem WF_of_WFb {ht : HT K S} (h : WFb f ht = true) : WF f ht := by
  unfold WFb at h
  rw [Bool.and_eq_true, Bool.and_eq_true, Bool.and_eq_true, Bool.and_eq_true,
    Bool.and_eq_true, Bool.and_eq_true] at h
  obtain ⟨⟨⟨⟨⟨⟨h1, h2⟩, h3⟩, h4⟩, h5⟩, h6⟩, h7⟩ := h
  have hcap : 0 < ht.capacity := of_decide_eq_true h1
  have hlen : ht.slots.length = ht.capacity := of_decide_eq_true h2
  have hcheck : ∀ i < ht.capacity, slotCheck ht i = true := by
    intro i hi
    exact List.all_eq_true.1 h5 i (List.mem_range.2 hi)
  constructor
  · exact hcap
  · exact hlen
  · intro r hr
    exact of_decide_eq_true (List.all_eq_true.1 h3 r hr)
  · exact of_decide_eq_true h4
  · intro i s hsi
    have hi : i < ht.capacity := by rw [← hlen]; exact lt_of_slotAt_some hsi
    have hc := hcheck i hi
    unfold slotCheck at hc
    simp only [hsi] at hc
    rcases hrow : ht.rows.get? s.2 with _ | row
    · simp only [hrow] at hc
      exact Bool.noConfusion hc
    · simp only [hrow, Bool.and_eq_true] at hc
      exact ⟨row, rfl, of_decide_eq_true hc.1⟩
  · intro i j s t hsi htj heq
    have hi : i < ht.capacity := by rw [← hlen]; exact lt_of_slotAt_some hsi
    have hj : j < ht.capacity := by rw [← hlen]; exact lt_of_slotAt_some htj
    have hp := List.all_eq_true.1
      (List.all_eq_true.1 h6 i (List.mem_range.2 hi)) j (List.mem_range.2 hj)
    simp only [hsi, htj, Bool.or_eq_true] at hp
    rcases hp with hp | hp
    · exact of_decide_eq_true hp
    · exact absurd heq (of_decide_eq_true hp)
  · intro rIdx hrIdx
    have hp := List.all_eq_true.1 h7 rIdx (List.mem_range.2 hrIdx)
    obtain ⟨i, _, hpi⟩ := List.any_eq_true.1 hp
    rcases hsi : ht.slotAt i with _ | s
    · simp only [hsi] at hpi
      exact Bool.noConfusion hpi
    · simp only [hsi] at hpi
      exact ⟨i, s, hsi, of_decide_eq_true hpi⟩
  · intro i s row hsi hrow d hd
    have hi : i < ht.capacity := by rw [← hlen]; exact lt_of_slotAt_some hsi
    have hc := hcheck i hi
    unfold slotCheck at hc
    simp only [hsi, hrow, Bool.and_eq_true] at hc
    have h2c := List.all_eq_true.1 hc.2 d (List.mem_range.2 hd)
    intro hnone
    rw [hnone] at h2c
    simp at h2c

end WFbSound

/-! ## Lifecycle accounting lemmas -/

section LifeSpec

theorem count_map_stInit (l : List Nat) (id : Nat) :
    (l.map DtorEvent.stInit).count (DtorEvent.stInit id) = l.count id :=
  List.count_map_of_injective l DtorEvent.stInit
    (fun a b h => by injection h) id

theorem count_map_stDestroy (l : List Nat) (id : Nat) :
    (l.map DtorEvent.stDestroy).count (DtorEvent.stDestroy id) = l.count id :=
  List.count_map_of_injective l DtorEvent.stDestroy
    (fun a b h => by injection h) id

theorem count_stDestroy_of_inits (l : List Nat) (id : Nat) :
    (l.map DtorEvent.stInit).count (DtorEvent.stDestroy id) = 0 :=
  List.count_eq_zero.2 (fun hmem => by
    obtain ⟨x, _, hx⟩ := List.mem_map.1 hmem
    exact DtorEvent.noConfusion hx)

theorem count_stInit_of_destroys (l : List Nat) (id : Nat) :
    (l.map DtorEvent.stDestroy).count (DtorEvent.stInit id) = 0 :=
  List.count_eq_zero.2 (fun hmem => by
    obtain ⟨x, _, hx⟩ := List.mem_map.1 hmem
    exact DtorEvent.noConfusion hx)

theorem count_nodup_mem (l : List Nat) (hnd : l.Nodup) (id : Nat) :
    l.count id = if id ∈ l then 1 else 0 := by
  by_cases hm : id ∈ l
  · rw [if_pos hm]
    exact List.count_eq_one_of_mem hnd hm
  · rw [if_neg hm]
    exact List.count_eq_zero_of_not_mem hm

theorem runLifeOps_invariant (ops : List LifeOp) :
    ∀ st : LifeState, st.live.Nodup → (∀ id ∈ st.live, id < st.next) →
    (∀ id, st.next ≤ id → countInit st.log id = 0 ∧ countDestroy st.log id = 0) →
    (∀ id, countInit st.log id ≤ 1) →
    (∀ id, countInit st.log id
      = countDestroy st.log id + (if id ∈ st.live then 1 else 0)) →
    ((runLifeOps st ops).live.Nodup ∧
     (∀ id ∈ (runLifeOps st ops).live, id < (runLifeOps st ops).next) ∧
     (∀ id, (runLifeOps st ops).next ≤ id →
        countInit (runLifeOps st ops).log id = 0 ∧
        countDestroy (runLifeOps st ops).log id = 0) ∧
     (∀ id, countInit (runLifeOps st ops).log id ≤ 1) ∧
     (∀ id, countInit (runLifeOps st ops).log id
        = countDestroy (runLifeOps st ops).log id +
          (if id ∈ (runLifeOps st ops).live then 1 else 0))) := by
  induction ops with
  | nil =>
    intro st h1 h2 h3 h4 h5
    exact ⟨h1, h2, h3, h4, h5⟩
  | cons op ops ih =>
    intro st h1 h2 h3 h4 h5
    cases op with
    | create n =>
      show (runLifeOps (createStates st n) ops).live.Nodup ∧ _
      have hci : ∀ id, countInit (createStates st n).log id
          = countInit st.log id + (if id ∈ List.range' st.next n then 1 else 0) := by
        intro id
        show (st.log ++ (List.range' st.next n).map DtorEvent.stInit).count _ = _
        rw [List.count_append, count_map_stInit,
          count_nodup_mem _ (List.nodup_range' _ _) id]
        rfl
      have hcd : ∀ id, countDestroy (createStates st n).log id = countDestroy st.log id := by
        intro id
        show (st.log ++ (List.range' st.next n).map DtorEvent.stInit).count _ = _
        rw [List.count_append, count_stDestroy_of_inits, Nat.add_zero]
        rfl
      refine ih (createStates st n) ?_ ?_ ?_ ?_ ?_
      · show (st.live ++ List.range' st.next n).Nodup
        rw [List.nodup_append]
        refine ⟨h1, List.nodup_range' _ _, fun a ha hb => ?_⟩
        have h6 := h2 a ha
        have h7 := List.mem_range'_1.1 hb
        omega
      · intro id hid
        rcases List.mem_append.1 hid with hm | hm
        · have := h2 id hm
          show id < st.next + n
          omega
        · have := List.mem_range'_1.1 hm
          show id < st.next + n
          omega
      · intro id hid
        have hid' : st.next ≤ id := by
          show st.next ≤ id
          have : st.next + n ≤ id := hid
          omega
        have hnm : id ∉ List.range' st.next n := by
          intro hm
          have := List.mem_range'_1.1 hm
          have : st.next + n ≤ id := hid
          omega
        rw [hci, hcd, if_neg hnm, Nat.add_zero]
        exact h3 id hid'
      · intro id
        rw [hci]
        by_cases hm : id ∈ List.range' st.next n
        · have hge : st.next ≤ id := (List.mem_range'_1.1 hm).1
          rw [(h3 id hge).1, if_pos hm]
        · rw [if_neg hm, Nat.add_zero]
          exact h4 id
      · intro id
        rw [hci, hcd]
        by_cases hm : id ∈ List.range' st.next n
        · have hge : st.next ≤ id := (List.mem_range'_1.1 hm).1
          have hnl : id ∉ st.live := fun hl => by have := h2 id hl; omega
          have hml : id ∈ st.live ++ List.range' st.next n := List.mem_append_right _ hm
          rw [(h3 id hge).1, (h3 id hge).2, if_pos hm,
            if_pos (show id ∈ (createStates st n).live from hml)]
        · rw [if_neg hm, Nat.add_zero]
          by_cases hl : id ∈ st.live
          · rw [if_pos (show id ∈ (createStates st n).live from List.mem_append_left _ hl)]
            have h6 := h5 id
            rw [if_pos hl] at h6
            exact h6
          · rw [if_neg (show id ∉ (createStates st n).live from fun hmem => by
              rcases List.mem_append.1 hmem with hq | hq
              · exact hl hq
              · exact hm hq)]
            have h6 := h5 id
            rw [if_neg hl] at h6
            exact h6
    | relocate =>
      show (runLifeOps (relocateStates st) ops).live.Nodup ∧ _
      have hci : ∀ id, countInit (relocateStates st).log id
          = countInit st.log id
            + (if id ∈ List.range' st.next st.live.length then 1 else 0) := by
        intro id
        show (st.log ++ (List.range' st.next st.live.length).map DtorEvent.stInit
          ++ st.live.map DtorEvent.stDestroy).count _ = _
        rw [List.count_append, List.count_append, count_map_stInit,
          count_stInit_of_destroys, Nat.add_zero,
          count_nodup_mem _ (List.nodup_range' _ _) id]
        rfl
      have hcd : ∀ id, countDestroy (relocateStates st).log id
          = countDestroy st.log id + (if id ∈ st.live then 1 else 0) := by
        intro id
        show (st.log ++ (List.range' st.next st.live.length).map DtorEvent.stInit
          ++ st.live.map DtorEvent.stDestroy).count _ = _
        rw [List.count_append, List.count_append, count_stDestroy_of_inits, Nat.add_zero,
          count_map_stDestroy, count_nodup_mem _ h1 id]
        rfl
      refine ih (relocateStates st) ?_ ?_ ?_ ?_ ?_
      · exact List.nodup_range' _ _
      · intro id hid
        have := List.mem_range'_1.1 hid
        show id < st.next + st.live.length
        omega
      · intro id hid
        have hid2 : st.next + st.live.length ≤ id := hid
        have hnm : id ∉ List.range' st.next st.live.length := by
          intro hm
          have := List.mem_range'_1.1 hm
          omega
        have hnl : id ∉ st.live := fun hl => by have := h2 id hl; omega
        rw [hci, hcd, if_neg hnm, if_neg hnl, Nat.add_zero, Nat.add_zero]
        exact h3 id (by omega)
      · intro id
        rw [hci]
        by_cases hm : id ∈ List.range' st.next st.live.length
        · have hge : st.next ≤ id := (List.mem_range'_1.1 hm).1
          rw [(h3 id hge).1, if_pos hm]
        · rw [if_neg hm, Nat.add_zero]
          exact h4 id
      · intro id
        rw [hci, hcd]
        by_cases hm : id ∈ List.range' st.next st.live.length
        · have hge : st.next ≤ id := (List.mem_range'_1.1 hm).1
          have hnl : id ∉ st.live := fun hl => by have := h2 id hl; omega
          rw [(h3 id hge).1, (h3 id hge).2, if_pos hm, if_neg hnl,
            if_pos (show id ∈ (relocateStates st).live from hm)]
        · rw [if_neg hm, Nat.add_zero]
          have hmem : id ∉ (relocateStates st).live := hm
          rw [if_neg hmem]
          by_cases hl : id ∈ st.live
          · rw [if_pos hl]
            have h6 := h5 id
            rw [if_pos hl] at h6
            omega
          · rw [if_neg hl]
            have h6 := h5 id
            rw [if_neg hl, Nat.add_zero] at h6
            rw [h6, Nat.add_zero]

theorem tableLife_counts (ops : List LifeOp) :
    ∀ id, countInit (tableLife ops).log id ≤ 1 ∧
      countInit (tableLife ops).log id = countDestroy (tableLife ops).log id := by
  obtain ⟨h1, h2, h3, h4, h5⟩ := runLifeOps_invariant ops initialLife
    List.nodup_nil (fun id h => absurd h (List.not_mem_nil id))
    (fun id _ => ⟨rfl, rfl⟩) (fun id => Nat.zero_le 1) (fun id => by simp [countInit, countDestroy, initialLife])
  intro id
  have hci : countInit (tableLife ops).log id
      = countInit (runLifeOps initialLife ops).log id := by
    show ((runLifeOps initialLife ops).log
      ++ (runLifeOps initialLife ops).live.map DtorEvent.stDestroy).count _ = _
    rw [List.count_append, count_stInit_of_destroys, Nat.add_zero]
    rfl
  have hcd : countDestroy (tableLife ops).log id
      = countDestroy (runLifeOps initialLife ops).log id
        + (if id ∈ (runLifeOps initialLife ops).live then 1 else 0) := by
    show ((runLifeOps initialLife ops).log
      ++ (runLifeOps initialLife ops).live.map DtorEvent.stDestroy).count _ = _
    rw [List.count_append, count_map_stDestroy, count_nodup_mem _ h1 id]
    rfl
  exact ⟨by rw [hci]; exact h4 id, by rw [hci, hcd]; exact h5 id⟩

end LifeSpec

/-! ## DISTINCT aggregate lemmas -/

section DistinctSpec

theorem newIndices_ge [DecidableEq K] :
    ∀ (ks : List K) (gs : List K) (i0 j : Nat), j ∈ newIndices gs ks i0 → i0 ≤ j := by
  intro ks
  induction ks with
  | nil => intro gs i0 j h; exact absurd h (List.not_mem_nil j)
  | cons k rest ih =>
    intro gs i0 j h
    by_cases hk : k ∈ gs
    · rw [newIndices, if_pos hk] at h
      have := ih gs (i0 + 1) j h
      omega
    · rw [newIndices, if_neg hk] at h
      rcases List.mem_cons.1 h with h1 | h1
      · omega
      · have := ih (gs ++ [k]) (i0 + 1) j h1
        omega

theorem foldl_select [DecidableEq K] [DecidableEq V] (agg : AggregateFunction V S) (g : K)
    (newSel : List Nat) :
    ∀ (l : List (Nat × (K × V))) (base : S),
    ((l.filterMap (fun q => if q.2.1 = g then
        some (if q.1 ∈ newSel then (fun s => agg.update s q.2.2) else id) else none)).foldl
      (fun s u => u s) base)
    = (l.filterMap (fun q => if q.2.1 = g ∧ q.1 ∈ newSel then some q.2.2 else none)).foldl
        agg.update base := by
  intro l
  induction l with
  | nil => intro base; rfl
  | cons q rest ih =>
    intro base
    by_cases hg : q.2.1 = g
    · by_cases hsel : q.1 ∈ newSel
      · have h1 : ((q :: rest).filterMap (fun q => if q.2.1 = g then
            some (if q.1 ∈ newSel then (fun s => agg.update s q.2.2) else id) else none))
            = (fun s => agg.update s q.2.2) :: rest.filterMap (fun q => if q.2.1 = g then
                some (if q.1 ∈ newSel then (fun s => agg.update s q.2.2) else id) else none) := by
          simp [List.filterMap_cons, hg, hsel]
        have h2 : ((q :: rest).filterMap
              (fun q => if q.2.1 = g ∧ q.1 ∈ newSel then some q.2.2 else none))
            = q.2.2 :: rest.filterMap
              (fun q => if q.2.1 = g ∧ q.1 ∈ newSel then some q.2.2 else none) := by
          simp [List.filterMap_cons, hg, hsel]
        rw [h1, h2]
        exact ih (agg.update base q.2.2)
      · have h1 : ((q :: rest).filterMap (fun q => if q.2.1 = g then
            some (if q.1 ∈ newSel then (fun s => agg.update s q.2.2) else id) else none))
            = id :: rest.filterMap (fun q => if q.2.1 = g then
                some (if q.1 ∈ newSel then (fun s => agg.update s q.2.2) else id) else none) := by
          simp [List.filterMap_cons, hg, hsel]
        have h2 : ((q :: rest).filterMap
              (fun q => if q.2.1 = g ∧ q.1 ∈ newSel then some q.2.2 else none))
            = rest.filterMap
              (fun q => if q.2.1 = g ∧ q.1 ∈ newSel then some q.2.2 else none) := by
          simp [List.filterMap_cons, hsel]
        rw [h1, h2]
        exact ih base
    · have h1 : ((q :: rest).filterMap (fun q => if q.2.1 = g then
          some (if q.1 ∈ newSel then (fun s => agg.update s q.2.2) else id) else none))
          = rest.filterMap (fun q => if q.2.1 = g then
              some (if q.1 ∈ newSel then (fun s => agg.update s q.2.2) else id) else none) := by
        simp [List.filterMap_cons, hg]
      have h2 : ((q :: rest).filterMap
            (fun q => if q.2.1 = g ∧ q.1 ∈ newSel then some q.2.2 else none))
          = rest.filterMap
            (fun q => if q.2.1 = g ∧ q.1 ∈ newSel then some q.2.2 else none) := by
        simp [List.filterMap_cons, hg]
      rw [h1, h2]
      exact ih base

theorem enumFrom_filterSel [DecidableEq K] [DecidableEq V] (g : K) :
    ∀ (batch : List (K × V)) (gs : List (K × V)) (i0 : Nat),
    ((batch.enumFrom i0).filterMap
      (fun q => if q.2.1 = g ∧ q.1 ∈ newIndices gs batch i0 then some q.2.2 else none))
    = (newGroupsList gs batch).filterMap (fun p => if p.1 = g then some p.2 else none) := by
  intro batch
  induction batch with
  | nil => intro gs i0; rfl
  | cons p rest ih =>
    intro gs i0
    rw [List.enumFrom_cons]
    by_cases hp : p ∈ gs
    · rw [show newIndices gs (p :: rest) i0 = newIndices gs rest (i0 + 1) from by
        rw [newIndices, if_pos hp]]
      rw [show newGroupsList gs (p :: rest) = newGroupsList gs rest from by
        rw [newGroupsList, if_pos hp]]
      have hni : i0 ∉ newIndices gs rest (i0 + 1) := fun hmem => by
        have := newIndices_ge rest gs (i0 + 1) i0 hmem
        omega
      have hstep : (((i0, p) :: rest.enumFrom (i0 + 1)).filterMap
          (fun q => if q.2.1 = g ∧ q.1 ∈ newIndices gs rest (i0 + 1) then some q.2.2 else none))
          = (rest.enumFrom (i0 + 1)).filterMap
            (fun q => if q.2.1 = g ∧ q.1 ∈ newIndices gs rest (i0 + 1)
              then some q.2.2 else none) := by
        simp [List.filterMap_cons, hni]
      rw [hstep]
      exact ih gs (i0 + 1)
    · rw [show newIndices gs (p :: rest) i0
          = i0 :: newIndices (gs ++ [p]) rest (i0 + 1) from by
        rw [newIndices, if_neg hp]]
      rw [show newGroupsList gs (p :: rest) = p :: newGroupsList (gs ++ [p]) rest from by
        rw [newGroupsList, if_neg hp]]
      have htail : ((rest.enumFrom (i0 + 1)).filterMap
          (fun q => if q.2.1 = g ∧ q.1 ∈ i0 :: newIndices (gs ++ [p]) rest (i0 + 1)
            then some q.2.2 else none))
          = (rest.enumFrom (i0 + 1)).filterMap
            (fun q => if q.2.1 = g ∧ q.1 ∈ newIndices (gs ++ [p]) rest (i0 + 1)
              then some q.2.2 else none) := by
        refine List.filterMap_congr (fun q hq => ?_)
        obtain ⟨hge, _, _⟩ := List.mem_enumFrom (show (q.1, q.2) ∈ rest.enumFrom (i0 + 1) from hq)
        have hne : q.1 ≠ i0 := by omega
        by_cases hqg : q.2.1 = g
        · by_cases hqm : q.1 ∈ newIndices (gs ++ [p]) rest (i0 + 1)
          · rw [if_pos ⟨hqg, List.mem_cons_of_mem i0 hqm⟩, if_pos ⟨hqg, hqm⟩]
          · rw [if_neg, if_neg]
            · rintro ⟨_, hm⟩
              exact hqm hm
            · rintro ⟨_, hm⟩
              rcases List.mem_cons.1 hm with h1 | h1
              · exact hne h1
              · exact hqm h1
        · rw [if_neg (fun hand => hqg hand.1), if_neg (fun hand => hqg hand.1)]
      by_cases hpg : p.1 = g
      · have hhead : (((i0, p) :: rest.enumFrom (i0 + 1)).filterMap
            (fun q => if q.2.1 = g ∧ q.1 ∈ i0 :: newIndices (gs ++ [p]) rest (i0 + 1)
              then some q.2.2 else none))
            = p.2 :: (rest.enumFrom (i0 + 1)).filterMap
              (fun q => if q.2.1 = g ∧ q.1 ∈ i0 :: newIndices (gs ++ [p]) rest (i0 + 1)
                then some q.2.2 else none) := by
          simp [List.filterMap_cons, hpg]
        have hhead2 : ((p :: newGroupsList (gs ++ [p]) rest).filterMap
            (fun x => if x.1 = g then some x.2 else none))
            = p.2 :: (newGroupsList (gs ++ [p]) rest).filterMap
              (fun x => if x.1 = g then some x.2 else none) := by
          simp [List.filterMap_cons, hpg]
        rw [hhead, hhead2, htail, ih (gs ++ [p]) (i0 + 1)]
      · have hhead : (((i0, p) :: rest.enumFrom (i0 + 1)).filterMap
            (fun q => if q.2.1 = g ∧ q.1 ∈ i0 :: newIndices (gs ++ [p]) rest (i0 + 1)
              then some q.2.2 else none))
            = (rest.enumFrom (i0 + 1)).filterMap
              (fun q => if q.2.1 = g ∧ q.1 ∈ i0 :: newIndices (gs ++ [p]) rest (i0 + 1)
                then some q.2.2 else none) := by
          simp [List.filterMap_cons, hpg]
        have hhead2 : ((p :: newGroupsList (gs ++ [p]) rest).filterMap
            (fun x => if x.1 = g then some x.2 else none))
            = (newGroupsList (gs ++ [p]) rest).filterMap
              (fun x => if x.1 = g then some x.2 else none) := by
          simp [List.filterMap_cons, hpg]
        rw [hhead, hhead2, htail, ih (gs ++ [p]) (i0 + 1)]

end DistinctSpec

/-! ## AddChunkDistinct characterization -/

section DistinctMaster

variable [DecidableEq K] [DecidableEq V] {f : K → Nat} {fp : K × V → Nat}

theorem AddChunkDistinct_spec (agg : AggregateFunction V S) {t : DistinctTable K V S}
    (hwfo : WF f t.outer) (hwfi : WF fp t.inner) (batch : List (K × V))
    (hroomo : t.outer.rows.length + batch.length ≤ t.outer.capacity)
    (hroomi : t.inner.rows.length + batch.length ≤ t.inner.capacity) :
    ∃ t', AddChunkDistinct f fp agg t batch = some t' ∧
      WF f t'.outer ∧ WF fp t'.inner ∧
      t'.inner.groups = t.inner.groups ++ newGroupsList t.inner.groups batch ∧
      ∀ g : K, t'.outer.stateOf g =
        if g ∈ batch.map Prod.fst
        then some (((newGroupsList t.inner.groups batch).filterMap
              (fun p => if p.1 = g then some p.2 else none)).foldl
              agg.update ((t.outer.stateOf g).getD agg.init))
        else t.outer.stateOf g := by
  obtain ⟨outer1, addrs, newSelA, hloopA, hwfA, hcapA, hrowsA, haddrsA, _⟩ :=
    findOrCreateLoopNoHashes_spec hwfo agg.init (batch.map Prod.fst) 0
      (by rw [List.length_map]; exact hroomo)
  obtain ⟨inner1, addrsB, newSel, hloopB, hwfB, hcapB, hrowsB, _, hselB⟩ :=
    findOrCreateLoopNoHashes_spec hwfi () batch 0 hroomi
  have hDC : AddChunkDistinct f fp agg t batch
      = some ⟨applyUpdates outer1 (selectOps agg addrs (batch.map Prod.snd) newSel), inner1⟩ := by
    unfold AddChunkDistinct FindOrCreateGroupsNoHashes
    rw [hloopA, hloopB]
  have hgroupsA : outer1.groups
      = t.outer.groups ++ newGroupsList t.outer.groups (batch.map Prod.fst) := by
    show outer1.rows.map Row.group = _
    rw [hrowsA, List.map_append, List.map_map]
    rw [show (Row.group ∘ fun k => (⟨k, f k, agg.init⟩ : Row K S)) = fun k => k from rfl,
      List.map_id']
    rfl
  have hgroupsB : inner1.groups = t.inner.groups ++ newGroupsList t.inner.groups batch := by
    show inner1.rows.map Row.group = _
    rw [hrowsB, List.map_append, List.map_map]
    rw [show (Row.group ∘ fun k => (⟨k, fp k, ()⟩ : Row (K × V) Unit)) = fun k => k from rfl,
      List.map_id']
    rfl
  have hops : selectOps agg addrs (batch.map Prod.snd) newSel
      = (batch.enum.map
          (fun q => (q.2.1, if q.1 ∈ newSel then (fun s => agg.update s q.2.2) else id))).map
          (fun q => ((findGroupIdx outer1.rows q.1).getD 0, q.2)) := by
    unfold selectOps
    rw [haddrsA, List.map_map, List.zip_map', List.enum_map, List.map_map, List.map_map]
    exact List.map_congr_left (fun q _ => rfl)
  have hpres : ∀ q ∈ batch.enum.map
      (fun q => (q.2.1, if q.1 ∈ newSel then (fun s => agg.update s q.2.2) else id)),
      q.1 ∈ outer1.groups := by
    intro q hq
    obtain ⟨e, hemem, heq⟩ := List.mem_map.1 hq
    have hq1 : q.1 = e.2.1 := by rw [← heq]
    have he2 : e.2 ∈ batch := List.snd_mem_of_mem_enum hemem
    rw [hq1, hgroupsA]
    by_cases hpg : e.2.1 ∈ t.outer.groups
    · exact List.mem_append_left _ hpg
    · exact List.mem_append_right _
        (mem_newGroupsList _ _ _ (List.mem_map_of_mem Prod.fst he2) hpg)
  have hstates1 : ∀ g : K, outer1.stateOf g = if g ∈ t.outer.groups then t.outer.stateOf g
      else if g ∈ newGroupsList t.outer.groups (batch.map Prod.fst)
        then some agg.init else none :=
    fun g => stateOf_append_init agg.init _ hrowsA g
  refine ⟨_, hDC, ?_, hwfB, hgroupsB, ?_⟩
  · rw [hops]
    exact WF_applyUpdates hwfA _
  · intro g
    show (applyUpdates outer1 (selectOps agg addrs (batch.map Prod.snd) newSel)).stateOf g = _
    rw [hops, applyUpdates_stateOf hwfA.groupsNodup _ hpres g, hstates1 g]
    rw [List.filterMap_map]
    have hfmc : ((fun p => if p.1 = g then some p.2 else none) ∘
        (fun (q : Nat × (K × V)) =>
          (q.2.1, if q.1 ∈ newSel then (fun s => agg.update s q.2.2) else id)))
        = fun q => if q.2.1 = g then
            some (if q.1 ∈ newSel then (fun s => agg.update s q.2.2) else id) else none := by
      funext q
      by_cases hc : q.2.1 = g <;> simp [hc]
    rw [hfmc]
    by_cases hgb : g ∈ batch.map Prod.fst
    · rw [if_pos hgb]
      have hfold : ∀ base : S,
          ((batch.enum.filterMap (fun q => if q.2.1 = g then
              some (if q.1 ∈ newSel then (fun s => agg.update s q.2.2) else id)
              else none)).foldl (fun s u => u s) base)
          = ((newGroupsList t.inner.groups batch).filterMap
              (fun p => if p.1 = g then some p.2 else none)).foldl agg.update base := by
        intro base
        rw [foldl_select agg g newSel batch.enum base, hselB,
          List.enum_eq_enumFrom, enumFrom_filterSel g batch t.inner.groups 0]
      by_cases hg1 : g ∈ t.outer.groups
      · rw [if_pos hg1]
        obtain ⟨row, _, hstate⟩ := stateOf_some_of_mem hg1
        rw [hstate, Option.map_some', Option.getD_some, hfold]
      · rw [if_neg hg1, if_pos (mem_newGroupsList _ _ _ hgb hg1),
          stateOf_none_of_not_mem hg1, Option.map_some', hfold]
        rfl
    · rw [if_neg hgb]
      have hfm : batch.enum.filterMap (fun q => if q.2.1 = g then
          some (if q.1 ∈ newSel then (fun s => agg.update s q.2.2) else id) else none) = [] :=
        List.filterMap_eq_nil.2 (fun q hq => if_neg (fun he =>
          hgb (by
            rw [← he]
            exact List.mem_map_of_mem Prod.fst (List.snd_mem_of_mem_enum hq))))
      rw [hfm]
      by_cases hg1 : g ∈ t.outer.groups
      · rw [if_pos hg1]
        obtain ⟨row, _, hstate⟩ := stateOf_some_of_mem hg1
        rw [hstate]
        rfl
      · rw [if_neg hg1, if_neg (fun hmem => hgb (newGroupsList_subset _ _ g hmem).1),
          stateOf_none_of_not_mem hg1]
        rfl

end DistinctMaster

/-! ## Assembly helper lemmas -/

section Assembly

variable [DecidableEq K] {f : K → Nat}

theorem mem_append_newGroupsList :
    ∀ (ks gs : List K) (g : K), g ∈ gs ++ newGroupsList gs ks ↔ g ∈ gs ∨ g ∈ ks := by
  intro ks gs g
  constructor
  · intro h
    rcases List.mem_append.1 h with h1 | h1
    · exact Or.inl h1
    · exact Or.inr (newGroupsList_subset gs ks g h1).1
  · intro h
    rcases h with h1 | h1
    · exact List.mem_append_left _ h1
    · by_cases h2 : g ∈ gs
      · exact List.mem_append_left _ h2
      · exact List.mem_append_right _ (mem_newGroupsList gs ks g h1 h2)

theorem newGroupsList_length_le :
    ∀ (ks gs : List K), (newGroupsList gs ks).length ≤ ks.length := by
  intro ks
  induction ks with
  | nil => intro gs; exact Nat.le_refl 0
  | cons k rest ih =>
    intro gs
    by_cases hk : k ∈ gs
    · rw [newGroupsList, if_pos hk]
      exact Nat.le_succ_of_le (ih gs)
    · rw [newGroupsList, if_neg hk, List.length_cons, List.length_cons]
      exact Nat.succ_le_succ (ih (gs ++ [k]))

theorem newIndices_length_eq :
    ∀ (ks gs : List K) (i0 : Nat),
    (newIndices gs ks i0).length = (newGroupsList gs ks).length := by
  intro ks
  induction ks with
  | nil => intro gs i0; rfl
  | cons k rest ih =>
    intro gs i0
    by_cases hk : k ∈ gs
    · rw [newIndices, if_pos hk, newGroupsList, if_pos hk]
      exact ih gs (i0 + 1)
    · rw [newIndices, if_neg hk, newGroupsList, if_neg hk, List.length_cons,
        List.length_cons, ih (gs ++ [k]) (i0 + 1)]

theorem newGroupsList_eq_of_disjoint :
    ∀ (ks gs : List K), ks.Nodup → (∀ g ∈ ks, g ∉ gs) → newGroupsList gs ks = ks := by
  intro ks
  induction ks with
  | nil => intro gs _ _; rfl
  | cons k rest ih =>
    intro gs hnd hdisj
    rw [List.nodup_cons] at hnd
    rw [newGroupsList, if_neg (hdisj k (List.mem_cons_self _ _))]
    rw [ih (gs ++ [k]) hnd.2 (fun g hg hmem => ?_)]
    rcases List.mem_append.1 hmem with h1 | h1
    · exact hdisj g (List.mem_cons_of_mem _ hg) h1
    · rw [List.mem_singleton.1 h1] at hg
      exact hnd.1 hg

theorem filterMap_get?_range {A : Type} :
    ∀ (rows : List A), (List.range rows.length).filterMap rows.get? = rows := by
  intro rows
  induction rows using List.reverseRecOn with
  | nil => rfl
  | append_singleton rs a ih =>
    rw [List.length_append, List.length_singleton, List.range_succ, List.filterMap_append]
    have h1 : (List.range rs.length).filterMap (rs ++ [a]).get?
        = (List.range rs.length).filterMap rs.get? := by
      refine List.filterMap_congr (fun i hi => ?_)
      exact List.get?_append (List.mem_range.1 hi)
    have h2 : ([rs.length] : List Nat).filterMap (rs ++ [a]).get? = [a] := by
      simp [List.filterMap_cons, List.get?_concat_length]
    rw [h1, h2, ih]

theorem scanAll_eq_live {ht : HT K S} (hwf : WF f ht) :
    (Scan ht 0 ht.capacity).1 = liveFrom ht ht.capacity 0 := by
  have h1 := (scanLoop_spec ht (ht.capacity - 0) 0 ht.capacity).1
  have hlen : (liveFrom ht ht.capacity 0).length = ht.rows.length := by
    rw [(liveFrom_full_perm hwf).length_eq, List.length_range]
  show (scanLoop ht (ht.capacity - 0) 0 ht.capacity).1 = _
  rw [h1, Nat.sub_zero, List.take_of_length_le]
  rw [hlen]
  exact entries_le_capacity hwf

theorem scanAll_perm_rows {ht : HT K S} (hwf : WF f ht) :
    (scanAll ht).Perm ht.rows := by
  unfold scanAll
  rw [scanAll_eq_live hwf]
  have hperm := (liveFrom_full_perm hwf).filterMap ht.rows.get?
  rw [filterMap_get?_range] at hperm
  exact hperm

theorem rows_pairs_eq_groups_map :
    ∀ (rows : List (Row K S)), (rows.map Row.group).Nodup →
    rows.map (fun r => (r.group, some r.state))
      = (rows.map Row.group).map
          (fun g => (g, (rows.find? (fun r => decide (r.group = g))).map Row.state)) := by
  intro rows
  induction rows with
  | nil => intro _; rfl
  | cons r rs ih =>
    intro hnd
    rw [List.map_cons, List.nodup_cons] at hnd
    rw [List.map_cons, List.map_cons, List.map_cons]
    have hhead : List.find? (fun x => decide (x.group = r.group)) (r :: rs) = some r :=
      List.find?_cons_of_pos _ (by simp)
    rw [hhead]
    have htail : (rs.map Row.group).map
        (fun g => (g, (List.find? (fun x => decide (x.group = g)) (r :: rs)).map Row.state))
        = (rs.map Row.group).map
          (fun g => (g, (List.find? (fun x => decide (x.group = g)) rs).map Row.state)) := by
      refine List.map_congr_left (fun g hg => ?_)
      have hne : r.group ≠ g := fun he => hnd.1 (he ▸ hg)
      rw [List.find?_cons_of_neg _ (by simp [hne])]
    rw [htail, ← ih hnd.2]
    rfl

theorem stateOf_eq_find? {ht : HT K S} (g : K) :
    ht.stateOf g = (ht.rows.find? (fun r => decide (r.group = g))).map Row.state := rfl

theorem AddChunkList_spec (agg : AggregateFunction I S) :
    ∀ (batches : List (List (K × I))) (ht : HT K S), WF f ht →
    ht.rows.length + (batches.map List.length).sum ≤ ht.capacity →
    ∃ ht', AddChunkList f agg ht batches = some ht' ∧ WF f ht' ∧
      ht'.capacity = ht.capacity ∧
      (∀ g : K, g ∈ ht'.groups ↔ g ∈ ht.groups ∨ g ∈ (batches.join.map Prod.fst)) := by
  intro batches
  induction batches with
  | nil =>
    intro ht hwf _
    exact ⟨ht, rfl, hwf, rfl, fun g => by simp⟩
  | cons batch rest ih =>
    intro ht hwf hroom
    rw [List.map_cons, List.sum_cons] at hroom
    obtain ⟨ht1, hAdd, hwf1, hcap1, hgroups1, _⟩ :=
      AddChunk_spec hwf agg batch (by omega)
    have hlen1 : ht1.rows.length ≤ ht.rows.length + batch.length := by
      have h1 : ht1.groups.length = ht.groups.length
          + (newGroupsList ht.groups (batch.map Prod.fst)).length := by
        rw [hgroups1, List.length_append]
      have h2 := newGroupsList_length_le (batch.map Prod.fst) ht.groups
      rw [List.length_map] at h2
      have h3 : ht1.groups.length = ht1.rows.length := List.length_map _ _
      have h4 : ht.groups.length = ht.rows.length := List.length_map _ _
      omega
    obtain ⟨ht', hrest, hwf', hcap', hmem'⟩ := ih ht1 hwf1 (by rw [hcap1]; omega)
    refine ⟨ht', ?_, hwf', by rw [hcap', hcap1], ?_⟩
    · show AddChunkList f agg ht (batch :: rest) = some ht'
      unfold AddChunkList
      rw [hAdd]
      exact hrest
    · intro g
      rw [hmem' g]
      have hm1 : g ∈ ht1.groups ↔ g ∈ ht.groups ∨ g ∈ batch.map Prod.fst := by
        rw [hgroups1]
        exact mem_append_newGroupsList _ _ g
      rw [hm1, show (batch :: rest).join = batch ++ rest.join from rfl,
        List.map_append, List.mem_append]
      tauto

theorem probeLoop_eq_full {ht : HT K S} (hwf : WF f ht) (k : K) :
    ∀ (fuel pos : Nat),
    probeLoop ht k (hashPrefixOf (f k)) fuel pos = probeLoopFull ht k fuel pos := by
  intro fuel
  induction fuel with
  | zero => intro pos; rfl
  | succ fu ih =>
    intro pos
    cases hs : ht.slotAt pos with
    | none => simp only [probeLoop, probeLoopFull, hs]
    | some s =>
      by_cases hm : (ht.rows.get? s.2).map Row.group = some k
      · have hpfx : s.1 = hashPrefixOf (f k) := by
          obtain ⟨row, hrow, hp⟩ := hwf.slotSound pos s hs
          obtain ⟨row', hrow', hg⟩ : ∃ row', ht.rows.get? s.2 = some row' ∧ row'.group = k := by
            rcases hre : ht.rows.get? s.2 with _ | row'
            · rw [hre] at hm; exact Option.noConfusion hm
            · rw [hre] at hm
              exact ⟨row', rfl, by injection hm⟩
          rw [hrow] at hrow'
          injection hrow' with he
          subst he
          rw [hp, hwf.rowHashes row (get?_mem hrow), hg]
        simp only [probeLoop, probeLoopFull, hs, if_pos (And.intro hpfx hm), if_pos hm]
      · have hcond : ¬(s.1 = hashPrefixOf (f k) ∧ (ht.rows.get? s.2).map Row.group = some k) :=
          fun hand => hm hand.2
        simp only [probeLoop, probeLoopFull, hs, if_neg hcond, if_neg hm]
        exact ih ((pos + 1) % ht.capacity)

theorem findOrCreate_eq_full {ht : HT K S} (hwf : WF f ht) (init : S) (k : K) :
    findOrCreate init ht k (f k) = findOrCreateFull init ht k (f k) := by
  unfold findOrCreate findOrCreateFull probe probeFull
  rw [probeLoop_eq_full hwf k]

theorem findOrCreateLoopFull_eq :
    ∀ (ks : List K) (ht : HT K S) (i0 : Nat), WF f ht → ∀ (init : S),
    ht.rows.length + ks.length ≤ ht.capacity →
    findOrCreateLoopNoHashes f init ht ks i0 = findOrCreateLoopFull f init ht ks i0 := by
  intro ks
  induction ks with
  | nil => intro ht i0 _ init _; rfl
  | cons k rest ih =>
    intro ht i0 hwf init hroom
    rw [List.length_cons] at hroom
    obtain ⟨ht1, addr, isNew, heq, hwf1, hcap1, hcase⟩ :=
      findOrCreate_spec hwf init k (fun _ => by show ht.rows.length < ht.capacity; omega)
    have hlen1 : ht1.rows.length ≤ ht.rows.length + 1 := by
      rcases hcase with ⟨_, _, hht1⟩ | ⟨_, _, _, hrows1⟩
      · rw [hht1]; omega
      · rw [hrows1, List.length_append, List.length_singleton]
    have heqF : findOrCreateFull init ht k (f k) = some (ht1, addr, isNew) := by
      rw [← findOrCreate_eq_full hwf init k]
      exact heq
    have hrec := ih ht1 (i0 + 1) hwf1 init (by rw [hcap1]; omega)
    simp only [findOrCreateLoopNoHashes, findOrCreateLoopFull, heq, heqF, hrec]

end Assembly

/-! ## Selection-vector and row-reconstruction lemmas -/

section SelectionRows

variable [DecidableEq K] {f : K → Nat}

theorem mem_newIndices :
    ∀ (ks gs : List K) (i0 i : Nat),
    i ∈ newIndices gs ks i0 ↔
      ∃ d k, i = i0 + d ∧ ks.get? d = some k ∧ k ∉ gs ∧ ∀ j < d, ks.get? j ≠ some k := by
  intro ks
  induction ks with
  | nil =>
    intro gs i0 i
    simp [newIndices]
  | cons k rest ih =>
    intro gs i0 i
    by_cases hk : k ∈ gs
    · rw [newIndices, if_pos hk, ih gs (i0 + 1) i]
      constructor
      · rintro ⟨d, k', hi, hget, hnot, hfirst⟩
        refine ⟨d + 1, k', by omega, hget, hnot, ?_⟩
        intro j hj
        cases j with
        | zero =>
          intro heq
          rw [List.get?_cons_zero] at heq
          exact hnot (Option.some.inj heq ▸ hk)
        | succ j' =>
          exact hfirst j' (by omega)
      · rintro ⟨d, k', hi, hget, hnot, hfirst⟩
        cases d with
        | zero =>
          rw [List.get?_cons_zero] at hget
          exact absurd (Option.some.inj hget ▸ hk) hnot
        | succ d' =>
          exact ⟨d', k', by omega, hget, hnot, fun j hj => hfirst (j + 1) (by omega)⟩
    · rw [newIndices, if_neg hk, List.mem_cons, ih (gs ++ [k]) (i0 + 1) i]
      constructor
      · rintro (rfl | ⟨d, k', hi, hget, hnot, hfirst⟩)
        · exact ⟨0, k, by omega, rfl, hk, fun j hj => absurd hj (Nat.not_lt_zero j)⟩
        · have hknot : k' ∉ gs := fun h => hnot (List.mem_append_left _ h)
          have hkne : k ≠ k' := fun h =>
            hnot (List.mem_append_right _ (List.mem_singleton.2 h.symm))
          refine ⟨d + 1, k', by omega, hget, hknot, ?_⟩
          intro j hj
          cases j with
          | zero =>
            intro heq
            rw [List.get?_cons_zero] at heq
            exact hkne (Option.some.inj heq)
          | succ j' =>
            exact hfirst j' (by omega)
      · rintro ⟨d, k', hi, hget, hnot, hfirst⟩
        cases d with
        | zero =>
          left
          omega
        | succ d' =>
          right
          have hkne : k ≠ k' := by
            intro h
            exact hfirst 0 (Nat.succ_pos d')
              (show (k :: rest).get? 0 = some k' from by rw [h, List.get?_cons_zero])
          refine ⟨d', k', by omega, hget, fun hmem => ?_, fun j hj => hfirst (j + 1) (by omega)⟩
          rcases List.mem_append.1 hmem with h1 | h1
          · exact hnot h1
          · exact hkne (List.mem_singleton.1 h1).symm

theorem rows_eq_keyed :
    ∀ (rows : List (Row K S)), (rows.map Row.group).Nodup →
    (∀ r ∈ rows, r.rowHash = f r.group) → ∀ (d : S),
    rows = (rows.map Row.group).map
      (fun g => ⟨g, f g,
        (((rows.find? (fun r => decide (r.group = g))).map Row.state).getD d)⟩) := by
  intro rows
  induction rows with
  | nil => intro _ _ d; rfl
  | cons r rs ih =>
    intro hnd hh d
    simp only [List.map_cons] at hnd
    rw [List.nodup_cons] at hnd
    simp only [List.map_cons]
    have hfr : List.find? (fun x => decide (x.group = r.group)) (r :: rs) = some r :=
      List.find?_cons_of_pos _ (by simp)
    have hhead : (⟨r.group, f r.group,
        ((List.find? (fun x => decide (x.group = r.group)) (r :: rs)).map
          Row.state).getD d⟩ : Row K S) = r := by
      rw [hfr]
      show (⟨r.group, f r.group, r.state⟩ : Row K S) = r
      rw [← hh r (List.mem_cons_self r rs)]
    have htail : (rs.map Row.group).map
        (fun g => (⟨g, f g, ((List.find? (fun x => decide (x.group = g))
            (r :: rs)).map Row.state).getD d⟩ : Row K S))
        = (rs.map Row.group).map
        (fun g => (⟨g, f g, ((List.find? (fun x => decide (x.group = g))
            rs).map Row.state).getD d⟩ : Row K S)) := by
      refine List.map_congr_left (fun g hg => ?_)
      have hne : r.group ≠ g := fun he => hnd.1 (by rw [he]; exact hg)
      rw [List.find?_cons_of_neg _ (by simp [hne])]
    rw [htail, ← ih hnd.2 (fun x hx => hh x (List.mem_cons_of_mem r hx)) d, hhead]

end SelectionRows

/-! ## Claim theorems -/

/-- Claim C1: for every sequence of `AddChunk` calls starting from a fresh
table, the number of rows produced by a subsequent full `Scan` equals the
number of distinct group keys inserted, and every inserted group remains
retrievable: its row appears in the scan output and `FetchAggregates`
returns its stored aggregate state. -/
theorem claim_C1 [DecidableEq K] (f : K → Nat) (agg : AggregateFunction I S)
    (cap : Nat) (hcap : 0 < cap) (batches : List (List (K × I)))
    (hroom : (batches.map List.length).sum ≤ cap) :
    ∃ ht', AddChunkList f agg (emptyHT K S cap) batches = some ht' ∧
      (scanAll ht').length = (batches.join.map Prod.fst).toFinset.card ∧
      ∀ g ∈ batches.join.map Prod.fst,
        ∃ s, ht'.stateOf g = some s ∧
          FetchAggregates f agg.init ht' [g] = some [s] ∧
          ∃ row ∈ scanAll ht', row.group = g ∧ row.state = s := by
  obtain ⟨ht', hrun, hwf', hcap', hmem⟩ :=
    AddChunkList_spec agg batches (emptyHT K S cap) (WF_empty cap hcap)
      (by show 0 + _ ≤ cap; omega)
  have hmem' : ∀ g, g ∈ ht'.groups ↔ g ∈ batches.join.map Prod.fst := by
    intro g
    rw [hmem g]
    have hne : g ∉ (emptyHT K S cap).groups := by
      show g ∉ List.map Row.group []
      simp
    tauto
  refine ⟨ht', hrun, ?_, ?_⟩
  · have hperm := scanAll_perm_rows hwf'
    have hfs : ht'.groups.toFinset = (batches.join.map Prod.fst).toFinset := by
      ext g
      rw [List.mem_toFinset, List.mem_toFinset, hmem' g]
    calc (scanAll ht').length = ht'.rows.length := hperm.length_eq
      _ = ht'.groups.length := by
          show _ = (ht'.rows.map Row.group).length
          rw [List.length_map]
      _ = ht'.groups.toFinset.card := (List.toFinset_card_of_nodup hwf'.groupsNodup).symm
      _ = (batches.join.map Prod.fst).toFinset.card := by rw [hfs]
  · intro g hg
    have hg' : g ∈ ht'.groups := (hmem' g).2 hg
    obtain ⟨r, hfi⟩ := exists_findGroupIdx_of_mem hwf'.groupsNodup hg'
    obtain ⟨row, hget, hgrp⟩ := findGroupIdx_some_spec hfi
    have hstate : ht'.stateOf g = some row.state := by
      rw [stateOf_eq_findGroupIdx, hfi]
      show (ht'.rows.get? r).map Row.state = _
      rw [hget]
      rfl
    have hfetch : FetchAggregates f agg.init ht' [g] = some [row.state] := by
      have hpres := findOrCreateLoopAddrOnly_present hwf' agg.init [g]
        (by intro k hk; rw [List.mem_singleton] at hk; subst hk; exact hg')
      show (match FindOrCreateGroupsAddrOnly f agg.init ht' [g] with
        | none => none
        | some (ht1, addrs) => addrs.mapM (fun a => (ht1.rows.get? a).map Row.state)) = _
      rw [show FindOrCreateGroupsAddrOnly f agg.init ht' [g]
          = some (ht', [g].map (fun k => (findGroupIdx ht'.rows k).getD 0)) from hpres]
      have hmap : [g].map (fun k => (findGroupIdx ht'.rows k).getD 0) = [r] := by
        simp [hfi]
      have hone : (ht'.rows.get? r).map Row.state = some row.state := by
        rw [hget]
        rfl
      have hF : ([r].mapM (fun a => (ht'.rows.get? a).map Row.state) : Option (List S))
          = some [row.state] := by
        rw [List.mapM_cons, hone, List.mapM_nil]
        rfl
      rw [hmap]
      exact hF
    exact ⟨row.state, hstate, hfetch,
      row, (scanAll_perm_rows hwf').mem_iff.2 (get?_mem hget), hgrp, rfl⟩

/-- Witness for claim C1: two chunks `[(1,·),(1,·)]` and `[(2,·)]` into a
fresh table of capacity 4 under COUNT. -/
theorem claim_C1_witness :
    0 < 4 ∧ (([[((1 : Nat), ()), (1, ())], [(2, ())]].map List.length).sum ≤ 4) ∧
    (∃ ht', AddChunkList (fun n => n) (countAgg Unit) (emptyHT Nat Nat 4)
        [[(1, ()), (1, ())], [(2, ())]] = some ht' ∧
      (scanAll ht').length
        = (([[((1 : Nat), ()), (1, ())], [(2, ())]].join).map Prod.fst).toFinset.card ∧
      ∀ g ∈ ([[((1 : Nat), ()), (1, ())], [(2, ())]].join).map Prod.fst,
        ∃ s, ht'.stateOf g = some s ∧
          FetchAggregates (fun n => n) (countAgg Unit).init ht' [g] = some [s] ∧
          ∃ row ∈ scanAll ht', row.group = g ∧ row.state = s) :=
  ⟨by decide, by decide,
   claim_C1 (fun n => n) (countAgg Unit) 4 (by decide)
     [[(1, ()), (1, ())], [(2, ())]] (by decide)⟩

/-- Claim C2: combining two tables that share a group key yields exactly one
scanned row for that key, whose state is `combine(stateA, stateB)`; and the
concrete scenario: merging a table holding `"x"` with count 5 into a table
holding `"x"` with count 7 and `"y"` with count 2 scans to `"x"` → 12 and
`"y"` → 2. -/
theorem claim_C2 :
    (∀ (K S I : Type) [DecidableEq K] (f : K → Nat) (agg : AggregateFunction I S)
       (a b : HT K S) (g : K), WF f a → WF f b →
       a.rows.length + b.rows.length ≤ a.capacity →
       g ∈ a.groups → g ∈ b.groups →
       ∃ c sa sb, Combine agg a b = some c ∧
         a.stateOf g = some sa ∧ b.stateOf g = some sb ∧
         c.stateOf g = some (agg.combine sa sb) ∧
         List.count g ((scanAll c).map Row.group) = 1) ∧
    (Combine (countAgg Unit) exCombineA exCombineB).map
        (fun c => (scanAll c).map (fun r => (r.group, r.state)))
      = some [("x", 12), ("y", 2)] := by
  constructor
  · intro K S I instK f agg a b g hwfa hwfb hroom hga hgb
    obtain ⟨c, hc, hwfc, hcapc, hgc, hstate⟩ := Combine_spec hwfa hwfb agg hroom
    obtain ⟨rowa, hfina, hsa⟩ := stateOf_some_of_mem hga
    obtain ⟨rowb, hfinb, hsb⟩ := stateOf_some_of_mem hgb
    refine ⟨c, rowa.state, rowb.state, hc, hsa, hsb, ?_, ?_⟩
    · rw [hstate g, hsb, hsa]
      rfl
    · have hmemc : g ∈ c.groups := by
        rw [hgc]
        exact List.mem_append_left _ hga
      have hpm := (scanAll_perm_rows hwfc).map Row.group
      exact (hpm.count_eq g).trans (List.count_eq_one_of_mem hwfc.groupsNodup hmemc)
  · decide

/-- Witness for claim C2: the shared-key general statement applied to the
concrete tables of the scenario at key `"x"`. -/
theorem claim_C2_witness :
    ∃ c sa sb, Combine (countAgg Unit) exCombineA exCombineB = some c ∧
      exCombineA.stateOf "x" = some sa ∧ exCombineB.stateOf "x" = some sb ∧
      c.stateOf "x" = some ((countAgg Unit).combine sa sb) ∧
      List.count "x" ((scanAll c).map Row.group) = 1 :=
  claim_C2.1 String Nat Unit String.length (countAgg Unit) exCombineA exCombineB "x"
    (WF_of_WFb (by decide)) (WF_of_WFb (by decide)) (by decide) (by decide) (by decide)

/-- Claim C3: a full scan split into any number of resumed `Scan` calls
(resuming from the returned cursor) produces exactly the output of a single
unbounded scan: exactly `entries` rows, with no duplicates and no omissions
(the table is not mutated between the calls). -/
theorem claim_C3 [DecidableEq K] (f : K → Nat) (ht : HT K S) (hwf : WF f ht)
    (limits : List Nat) (hcover : ht.entries ≤ limits.sum) :
    scanChain ht 0 limits = (Scan ht 0 ht.capacity).1 ∧
    (scanChain ht 0 limits).length = ht.entries ∧
    (scanChain ht 0 limits).Nodup ∧
    ∀ r, r ∈ scanChain ht 0 limits ↔ r < ht.entries := by
  have hperm := liveFrom_full_perm hwf
  have hlen : (liveFrom ht ht.capacity 0).length = ht.rows.length := by
    rw [hperm.length_eq, List.length_range]
  have hchain : scanChain ht 0 limits = liveFrom ht ht.capacity 0 := by
    rw [scanChain_take ht limits 0 (Nat.zero_le _), Nat.sub_zero,
      List.take_of_length_le (by rw [hlen]; exact hcover)]
  refine ⟨by rw [hchain, scanAll_eq_live hwf], by rw [hchain]; exact hlen,
    by rw [hchain]; exact hperm.nodup_iff.2 (List.nodup_range _),
    fun r => by rw [hchain, hperm.mem_iff, List.mem_range]; exact Iff.rfl⟩

/-- Witness for claim C3: the two-row example table scanned as two resumed
calls of one row each. -/
theorem claim_C3_witness :
    exCombineA.entries ≤ ([1, 1] : List Nat).sum ∧
    scanChain exCombineA 0 [1, 1] = (Scan exCombineA 0 exCombineA.capacity).1 ∧
    (scanChain exCombineA 0 [1, 1]).length = exCombineA.entries ∧
    (scanChain exCombineA 0 [1, 1]).Nodup :=
  ⟨by decide,
   (claim_C3 String.length exCombineA (WF_of_WFb (by decide)) [1, 1] (by decide)).1,
   (claim_C3 String.length exCombineA (WF_of_WFb (by decide)) [1, 1] (by decide)).2.1,
   (claim_C3 String.length exCombineA (WF_of_WFb (by decide)) [1, 1] (by decide)).2.2.1⟩

/-- Claim C4: in one `FindOrCreateGroups` batch, equal group keys resolve to
equal row addresses; a batch position is in the `new_groups` selection
exactly when it is the first occurrence of a key not already in the table;
and the selection's size (the returned count) equals the number of newly
created groups. -/
theorem claim_C4 [DecidableEq K] (f : K → Nat) (init : S) (ht : HT K S)
    (hwf : WF f ht) (ks : List K) (hroom : ht.entries + ks.length ≤ ht.capacity) :
    ∃ ht2 addrs newSel,
      FindOrCreateGroupsNoHashes f init ht ks = some (ht2, addrs, newSel) ∧
      (∀ i j ki kj, ks.get? i = some ki → ks.get? j = some kj → ki = kj →
        addrs.get? i = addrs.get? j) ∧
      (∀ i, i ∈ newSel ↔
        ∃ k, ks.get? i = some k ∧ k ∉ ht.groups ∧ ∀ j < i, ks.get? j ≠ some k) ∧
      newSel.length = ht2.entries - ht.entries := by
  obtain ⟨ht2, addrs, newSel, hloop, hwf2, hcap2, hrows2, haddrs, hsel⟩ :=
    findOrCreateLoopNoHashes_spec hwf init ks 0 hroom
  refine ⟨ht2, addrs, newSel, hloop, ?_, ?_, ?_⟩
  · intro i j ki kj hki hkj hkk
    rw [haddrs, List.get?_map, List.get?_map, hki, hkj, hkk]
  · intro i
    rw [hsel, mem_newIndices ks ht.groups 0 i]
    constructor
    · rintro ⟨d, k, hi, hget, hnot, hfirst⟩
      rw [Nat.zero_add] at hi
      subst hi
      exact ⟨k, hget, hnot, hfirst⟩
    · rintro ⟨k, hget, hnot, hfirst⟩
      exact ⟨i, k, (Nat.zero_add i).symm, hget, hnot, hfirst⟩
  · have h1 : newSel.length = (newGroupsList ht.groups ks).length := by
      rw [hsel, newIndices_length_eq]
    have h2 : ht2.entries = ht.entries + (newGroupsList ht.groups ks).length := by
      show ht2.rows.length = ht.rows.length + _
      rw [hrows2, List.length_append, List.length_map]
    omega

/-- Witness for claim C4: the batch `[1, 1, 2]` into a fresh table of
capacity 4 (the duplicate key 1 resolves to one row). -/
theorem claim_C4_witness :
    (emptyHT Nat Nat 4).entries + [1, 1, 2].length ≤ (emptyHT Nat Nat 4).capacity ∧
    (∃ ht2 addrs newSel,
      FindOrCreateGroupsNoHashes (fun n => n) (0 : Nat) (emptyHT Nat Nat 4) [1, 1, 2]
        = some (ht2, addrs, newSel) ∧
      (∀ i j ki kj, [1, 1, 2].get? i = some ki → [1, 1, 2].get? j = some kj → ki = kj →
        addrs.get? i = addrs.get? j) ∧
      (∀ i, i ∈ newSel ↔
        ∃ k, [1, 1, 2].get? i = some k ∧ k ∉ (emptyHT Nat Nat 4).groups ∧
          ∀ j < i, [1, 1, 2].get? j ≠ some k) ∧
      newSel.length = ht2.entries - (emptyHT Nat Nat 4).entries) :=
  ⟨by decide,
   claim_C4 (fun n => n) 0 (emptyHT Nat Nat 4) (WF_of_WFb (by decide)) [1, 1, 2] (by decide)⟩

/-- Claim C5: combining two tables with disjoint group-key sets yields a
table whose row storage is exactly the union (concatenation) of both row
lists, whose scan is a permutation of that union, and in which every group
keeps its original aggregate state (assuming the catalog's combine treats a
freshly initialized state as neutral, as the external aggregate contract
prescribes). -/
theorem claim_C5 [DecidableEq K] (f : K → Nat) (a b : HT K S)
    (agg : AggregateFunction I S) (hwfa : WF f a) (hwfb : WF f b)
    (hroom : a.rows.length + b.rows.length ≤ a.capacity)
    (hdisj : ∀ g ∈ b.groups, g ∉ a.groups)
    (hunit : ∀ s, agg.combine agg.init s = s) :
    ∃ c, Combine agg a b = some c ∧ WF f c ∧
      c.rows = a.rows ++ b.rows ∧
      (scanAll c).Perm (a.rows ++ b.rows) ∧
      (∀ g ∈ a.groups, c.stateOf g = a.stateOf g) ∧
      (∀ g ∈ b.groups, c.stateOf g = b.stateOf g) := by
  obtain ⟨c, hc, hwfc, hcapc, hgc, hstate⟩ := Combine_spec hwfa hwfb agg hroom
  have hgc' : c.groups = a.groups ++ b.groups := by
    rw [hgc, newGroupsList_eq_of_disjoint b.groups a.groups hwfb.groupsNodup hdisj]
  have hsA : ∀ g ∈ a.groups, c.stateOf g = a.stateOf g := by
    intro g hga
    have hgb : g ∉ b.groups := fun h => hdisj g h hga
    rw [hstate g, stateOf_none_of_not_mem hgb]
  have hsB : ∀ g ∈ b.groups, c.stateOf g = b.stateOf g := by
    intro g hgb
    obtain ⟨rowb, hfinb, hsb⟩ := stateOf_some_of_mem hgb
    have hga : g ∉ a.groups := hdisj g hgb
    rw [hstate g, hsb, stateOf_none_of_not_mem hga]
    show some (agg.combine agg.init rowb.state) = _
    rw [hunit rowb.state]
  have hrows : c.rows = a.rows ++ b.rows := by
    have hcrows := rows_eq_keyed c.rows hwfc.groupsNodup hwfc.rowHashes agg.init
    have harows := rows_eq_keyed a.rows hwfa.groupsNodup hwfa.rowHashes agg.init
    have hbrows := rows_eq_keyed b.rows hwfb.groupsNodup hwfb.rowHashes agg.init
    rw [hcrows]
    show (c.groups.map _ : List (Row K S)) = _
    rw [hgc', List.map_append]
    have hA : a.groups.map (fun g => (⟨g, f g,
        ((c.rows.find? (fun r => decide (r.group = g))).map Row.state).getD agg.init⟩ : Row K S))
        = a.rows := by
      rw [show (a.groups.map (fun g => (⟨g, f g,
          ((c.rows.find? (fun r => decide (r.group = g))).map Row.state).getD
            agg.init⟩ : Row K S)))
          = a.groups.map (fun g => (⟨g, f g,
          ((a.rows.find? (fun r => decide (r.group = g))).map Row.state).getD
            agg.init⟩ : Row K S)) from
        List.map_congr_left (fun g hg => by rw [show ((c.rows.find?
          (fun r => decide (r.group = g))).map Row.state)
          = ((a.rows.find? (fun r => decide (r.group = g))).map Row.state) from hsA g hg])]
      exact (harows).symm
    have hB : b.groups.map (fun g => (⟨g, f g,
        ((c.rows.find? (fun r => decide (r.group = g))).map Row.state).getD agg.init⟩ : Row K S))
        = b.rows := by
      rw [show (b.groups.map (fun g => (⟨g, f g,
          ((c.rows.find? (fun r => decide (r.group = g))).map Row.state).getD
            agg.init⟩ : Row K S)))
          = b.groups.map (fun g => (⟨g, f g,
          ((b.rows.find? (fun r => decide (r.group = g))).map Row.state).getD
            agg.init⟩ : Row K S)) from
        List.map_congr_left (fun g hg => by rw [show ((c.rows.find?
          (fun r => decide (r.group = g))).map Row.state)
          = ((b.rows.find? (fun r => decide (r.group = g))).map Row.state) from hsB g hg])]
      exact (hbrows).symm
    rw [hA, hB]
  refine ⟨c, hc, hwfc, hrows, ?_, hsA, hsB⟩
  rw [← hrows]
  exact scanAll_perm_rows hwfc

/-- Witness for claim C5: merging the disjoint `"zzz"` table into the
`"x"`/`"y"` table under COUNT. -/
theorem claim_C5_witness :
    (∀ g ∈ exDisjointB.groups, g ∉ exCombineA.groups) ∧
    (∃ c, Combine (countAgg Unit) exCombineA exDisjointB = some c ∧
      WF String.length c ∧
      c.rows = exCombineA.rows ++ exDisjointB.rows ∧
      (scanAll c).Perm (exCombineA.rows ++ exDisjointB.rows) ∧
      (∀ g ∈ exCombineA.groups, c.stateOf g = exCombineA.stateOf g) ∧
      (∀ g ∈ exDisjointB.groups, c.stateOf g = exDisjointB.stateOf g)) :=
  ⟨by decide,
   claim_C5 String.length exCombineA exDisjointB (countAgg Unit)
     (WF_of_WFb (by decide)) (WF_of_WFb (by decide)) (by decide) (by decide)
     (fun s => Nat.zero_add s)⟩

/-- Claim C6: `Resize` demands a new capacity that is larger than the
current one and a power of two — any violation is fatal (`none`) — and on
success it preserves the entire row storage verbatim (group keys, stored
hashes and aggregate states bit-for-bit); only the slot addresses change. -/
theorem claim_C6 [DecidableEq K] (f : K → Nat) (ht : HT K S) (hwf : WF f ht) (newCap : Nat) :
    (¬(ht.capacity < newCap ∧ isPow2 newCap = true) → Resize ht newCap = none) ∧
    ((ht.capacity < newCap ∧ isPow2 newCap = true) →
      ∃ ht', Resize ht newCap = some ht' ∧ WF f ht' ∧ ht'.capacity = newCap ∧
        ht'.rows = ht.rows) := by
  obtain ⟨h1, h2⟩ := Resize_spec hwf newCap
  exact ⟨fun hno => h1 (fun hcond => hno ⟨hcond.1, (isPow2_iff newCap).2 hcond.2⟩),
    fun hyes => h2 ⟨hyes.1, (isPow2_iff newCap).1 hyes.2⟩⟩

/-- Witness for claim C6: resizing the example table to 6 is fatal (not a
power of two), resizing it to 8 succeeds and keeps the rows verbatim. -/
theorem claim_C6_witness :
    Resize exCombineA 6 = none ∧
    (∃ ht', Resize exCombineA 8 = some ht' ∧ WF String.length ht' ∧
      ht'.capacity = 8 ∧ ht'.rows = exCombineA.rows) :=
  ⟨(claim_C6 String.length exCombineA (WF_of_WFb (by decide)) 6).1
     (by simp [exCombineA, isPow2, Nat.log2]),
   (claim_C6 String.length exCombineA (WF_of_WFb (by decide)) 8).2
     ⟨by decide, by simp [isPow2, Nat.log2]⟩⟩

/-- Claim C7: a DISTINCT-qualified aggregate routes each input through the
nested sub-table and invokes the outer update only for (group, value) pairs
newly inserted there, so each group's state is the fold of the update
function over the values newly inserted for that group; and the concrete
scenario: COUNT(DISTINCT v) fed `[1, 1, 2]` for one group comes out as 2,
not 3. -/
theorem claim_C7 :
    (∀ (K V S : Type) [DecidableEq K] [DecidableEq V] (f : K → Nat)
       (fp : K × V → Nat) (agg : AggregateFunction V S) (t : DistinctTable K V S)
       (batch : List (K × V)), WF f t.outer → WF fp t.inner →
       t.outer.rows.length + batch.length ≤ t.outer.capacity →
       t.inner.rows.length + batch.length ≤ t.inner.capacity →
       ∃ t', AddChunkDistinct f fp agg t batch = some t' ∧
         ∀ g : K, t'.outer.stateOf g =
           if g ∈ batch.map Prod.fst
           then some (((newGroupsList t.inner.groups batch).filterMap
                 (fun p => if p.1 = g then some p.2 else none)).foldl
                 agg.update ((t.outer.stateOf g).getD agg.init))
           else t.outer.stateOf g) ∧
    (AddChunkDistinct (fun g => g) (fun p => p.1 + 3 * p.2) (countAgg Nat)
        exDistinct0 [(0, 1), (0, 1), (0, 2)]).map (fun t => t.outer.stateOf 0)
      = some (some 2) := by
  constructor
  · intro K V S instK instV f fp agg t batch hwfo hwfi hroomo hroomi
    obtain ⟨t', hEq, hwfo', hwfi', hinner, hstate⟩ :=
      AddChunkDistinct_spec agg hwfo hwfi batch hroomo hroomi
    exact ⟨t', hEq, hstate⟩
  · decide

/-- Witness for claim C7: the general DISTINCT statement applied to the
concrete COUNT(DISTINCT) scenario `[(0,1), (0,1), (0,2)]`. -/
theorem claim_C7_witness :
    exDistinct0.outer.rows.length + [((0 : Nat), (1 : Nat)), (0, 1), (0, 2)].length
        ≤ exDistinct0.outer.capacity ∧
    exDistinct0.inner.rows.length + [((0 : Nat), (1 : Nat)), (0, 1), (0, 2)].length
        ≤ exDistinct0.inner.capacity ∧
    (∃ t', AddChunkDistinct (fun g => g) (fun p => p.1 + 3 * p.2) (countAgg Nat)
        exDistinct0 [(0, 1), (0, 1), (0, 2)] = some t' ∧
      ∀ g : Nat, t'.outer.stateOf g =
        if g ∈ [((0 : Nat), (1 : Nat)), (0, 1), (0, 2)].map Prod.fst
        then some (((newGroupsList exDistinct0.inner.groups
              [(0, 1), (0, 1), (0, 2)]).filterMap
              (fun p => if p.1 = g then some p.2 else none)).foldl
              (countAgg Nat).update ((exDistinct0.outer.stateOf g).getD (countAgg Nat).init))
        else exDistinct0.outer.stateOf g) :=
  ⟨by decide, by decide,
   claim_C7.1 Nat Nat Nat (fun g => g) (fun p => p.1 + 3 * p.2) (countAgg Nat)
     exDistinct0 [(0, 1), (0, 1), (0, 2)]
     (WF_of_WFb (by decide)) (WF_of_WFb (by decide)) (by decide) (by decide)⟩

/-- Claim C8: over any table life (construction, creations and relocations,
teardown), every aggregate-state instance is initialized at most once and is
destroyed exactly as many times as it is initialized — destruction happens
once at relocation or once at teardown, never both and never zero times for
a created instance. -/
theorem claim_C8 (ops : List LifeOp) (id : Nat) :
    countInit (tableLife ops).log id ≤ 1 ∧
    countDestroy (tableLife ops).log id = countInit (tableLife ops).log id := by
  obtain ⟨h1, h2⟩ := tableLife_counts ops id
  exact ⟨h1, h2.symm⟩

/-- Claim C9: the `FindOrCreateGroups` overload without a hash vector equals
hashing the batch with `HashGroups` and calling the four-argument overload
(same table, addresses and `new_groups` selection), and the two-argument
overload fills the addresses identically, dropping only the selection. -/
theorem claim_C9 [DecidableEq K] (f : K → Nat) (init : S) (ht : HT K S) (ks : List K) :
    FindOrCreateGroupsNoHashes f init ht ks
      = FindOrCreateGroups init ht ks (HashGroups f ks) ∧
    FindOrCreateGroupsAddrOnly f init ht ks
      = (FindOrCreateGroupsNoHashes f init ht ks).map (fun t => (t.1, t.2.1)) := by
  refine ⟨?_, findOrCreateLoopAddrOnly_eq init ks ht 0⟩
  show findOrCreateLoopNoHashes f init ht ks 0
    = findOrCreateLoop init ht (ks.zip (ks.map f)) 0
  rw [findOrCreateLoop_zip_eq init ks ht 0]

/-- Claim C10: the cached 16-bit hash-prefix filter is sound: on a
well-formed table, batch find-or-create with prefix-then-key comparison
returns exactly what the otherwise identical full-key-comparison prober
returns (same table, addresses and created count), and likewise for a
single probe — no matching group is ever skipped because of the prefix
mask. -/
theorem claim_C10 [DecidableEq K] (f : K → Nat) (init : S) (ht : HT K S)
    (hwf : WF f ht) (ks : List K) (hroom : ht.entries + ks.length ≤ ht.capacity) :
    FindOrCreateGroupsNoHashes f init ht ks = FindOrCreateGroupsFull f init ht ks ∧
    ∀ k : K, findOrCreate init ht k (f k) = findOrCreateFull init ht k (f k) := by
  refine ⟨?_, fun k => findOrCreate_eq_full hwf init k⟩
  show findOrCreateLoopNoHashes f init ht ks 0 = findOrCreateLoopFull f init ht ks 0
  exact findOrCreateLoopFull_eq ks ht 0 hwf init hroom

/-- Witness for claim C10: the example table probed for an existing and a
fresh key. -/
theorem claim_C10_witness :
    exCombineA.entries + ["x", "ab"].length ≤ exCombineA.capacity ∧
    FindOrCreateGroupsNoHashes String.length (0 : Nat) exCombineA ["x", "ab"]
      = FindOrCreateGroupsFull String.length 0 exCombineA ["x", "ab"] :=
  ⟨by decide,
   (claim_C10 String.length 0 exCombineA (WF_of_WFb (by decide)) ["x", "ab"]
     (by decide)).1⟩

end DuckDBAgg
